import Mathlib

/-!
Verification of the undo engine of `generic_index` from
`src/include/chainbase/chainbase.hpp` (GolosChain/chainbase).

The embedding follows the source:

* `boost::interprocess::map<id_type, value_type>` (the `old_values` and
  `removed_values` members of `undo_state`, ordered by id) is embedded as a
  strictly-sorted association list `List (Nat × α)` with `mfind` / `mput` /
  `mset` / `mdel`.  `mput` models `map::emplace`, which inserts only when the
  key is absent and is a no-op otherwise.
* `boost::interprocess::set<id_type>` (the `new_ids` member) is embedded as a
  strictly-sorted `List Nat` with `sput` / `sdel`.
* The multi-index container `_indices` is embedded as a strictly-sorted
  association list from id to payload, together with a list `ks` of unique
  secondary key extractors (the template parameter `MultiIndexType` of
  `generic_index` determines which unique secondary indices exist; `ks = []`
  embeds an object kind whose only unique index is the primary id).
  Per the documented semantics of `boost::multi_index`, `emplace` fails when
  any unique index collides, and `modify(it, m)` applies `m` in place and, if
  the rearrangement collides with another element on a unique index, erases
  the element and returns `false`.
* Object ids are `int64_t` that start at 0 and only ever grow by `++`; they
  are embedded as `Nat`.  Revisions are `int64_t`, embedded as `Int`.
* A mutator passed to `modify` acts on the payload (`α → α`); the id field is
  assigned and managed by `generic_index` (comment at chainbase.hpp:263) and
  is never changed by a client mutator.
* Exceptions become an `Err` value.  Fallible member functions that in C++
  leave the `generic_index` in a defined state after throwing return the
  resulting state together with `Except Err`; `undo`, whose failures are
  fatal to the stack per the spec, returns `Except Err (generic_index α)`
  and the partially-undone state after a throw is not modeled.
-/

namespace Chainbase

/-- Lookup in an association list keyed by id (`map::find`). -/
def mfind {α : Type} : List (Nat × α) → Nat → Option α
  | [], _ => none
  | y :: rest, i => if i = y.1 then some y.2 else mfind rest i

/-- `map::emplace`: insert keeping ascending key order; no-op when the key is
already present. -/
def mput {α : Type} (x : Nat × α) : List (Nat × α) → List (Nat × α)
  | [] => [x]
  | y :: rest =>
    if x.1 < y.1 then x :: y :: rest
    else if x.1 = y.1 then y :: rest
    else y :: mput x rest

/-- Replace the value stored at a key, leaving the key set unchanged
(the in-place `container.modify` used by `undo` to write a pre-image back). -/
def mset {α : Type} (i : Nat) (v : α) : List (Nat × α) → List (Nat × α)
  | [] => []
  | y :: rest => if y.1 = i then (i, v) :: rest else y :: mset i v rest

/-- `map::erase(key)`. -/
def mdel {α : Type} (i : Nat) : List (Nat × α) → List (Nat × α)
  | [] => []
  | y :: rest => if y.1 = i then mdel i rest else y :: mdel i rest

/-- `set::insert`: insert keeping ascending order; no-op when present. -/
def sput (i : Nat) : List Nat → List Nat
  | [] => [i]
  | j :: rest =>
    if i < j then i :: j :: rest
    else if i = j then j :: rest
    else j :: sput i rest

/-- `set::erase(key)`. -/
def sdel (i : Nat) : List Nat → List Nat
  | [] => []
  | j :: rest => if j = i then sdel i rest else j :: sdel i rest

/-- Keys strictly ascending: the well-formedness of an ordered map. -/
def KeysSorted {α : Type} (l : List (Nat × α)) : Prop :=
  l.Pairwise (fun a b => a.1 < b.1)

/-- Elements strictly ascending: the well-formedness of an ordered set. -/
def NatSorted (s : List Nat) : Prop :=
  s.Pairwise (· < ·)

instance {α : Type} (l : List (Nat × α)) : Decidable (KeysSorted l) :=
  List.instDecidablePairwise l

instance (s : List Nat) : Decidable (NatSorted s) :=
  List.instDecidablePairwise s

instance {ε σ : Type} [DecidableEq ε] [DecidableEq σ] : DecidableEq (Except ε σ) := fun a b =>
  match a, b with
  | .error x, .error y =>
    if h : x = y then .isTrue (by rw [h]) else .isFalse (fun hc => h (Except.error.inj hc))
  | .error _, .ok _ => .isFalse (fun hc => Except.noConfusion hc)
  | .ok _, .error _ => .isFalse (fun hc => Except.noConfusion hc)
  | .ok x, .ok y =>
    if h : x = y then .isTrue (by rw [h]) else .isFalse (fun hc => h (Except.ok.inj hc))

/-! ## Data model

`undo_state` (chainbase.hpp:186-209) and `generic_index` (chainbase.hpp:268-744).

The C++ `_stack` is a deque whose *back* is the newest undo state; here the
stack is a `List` whose *head* is the newest state, so `_stack.back()` is the
list head and `_stack[0]` (the front, popped by `commit`) is the last element.
-/

/-- Exception kinds raised by `generic_index` member functions. -/
inductive Err where
  /-- `std::logic_error` from a violated uniqueness constraint in
  `emplace` or `modify`. -/
  | uniqueness
  /-- `std::logic_error` raised inside `undo` when the container rejects a
  restoration step (the spec calls this StateCorrupt), and the
  undefined behavior of dereferencing `end()` inside `undo`. -/
  | stateCorrupt
  /-- Undefined behavior guard: calling `modify`/`remove` with a reference to
  an object that is not in the container (`iterator_to` precondition). -/
  | precond
  deriving DecidableEq, Repr

/-- `undo_state<value_type>` (chainbase.hpp:186-209). -/
structure undo_state (α : Type) where
  old_values : List (Nat × α)
  removed_values : List (Nat × α)
  new_ids : List Nat
  old_next_id : Nat
  revision : Int
  deriving DecidableEq, Repr

/-- The state of `generic_index<MultiIndexType>` (chainbase.hpp:716-729):
undo stack (newest first), revision counter, next id, and the multi-index
container `_indices` as an id-sorted association list. -/
structure generic_index (α : Type) where
  stack : List (undo_state α)
  revision : Int
  next_id : Nat
  indices : List (Nat × α)
  deriving DecidableEq, Repr

/-- A freshly constructed `generic_index` (chainbase.hpp:278-282). -/
def ginit (α : Type) : generic_index α :=
  { stack := [], revision := 0, next_id := 0, indices := [] }

/-- Two payloads clash on some declared unique secondary index. -/
def uniqueClash {α : Type} (ks : List (α → Nat)) (a b : α) : Bool :=
  ks.any (fun k => k a == k b)

/-- `multi_index_container::emplace` fails: the new value collides with an
existing element on the primary (id) index or a unique secondary index. -/
def insClash {α : Type} (ks : List (α → Nat)) (l : List (Nat × α)) (v : Nat × α) : Bool :=
  (mfind l v.1).isSome || l.any (fun r => uniqueClash ks r.2 v.2)

/-- `multi_index_container::modify` rearrangement fails: the mutated payload
`w` of the element with id `i` collides with a *different* element on a
unique secondary index. -/
def modClash {α : Type} (ks : List (α → Nat)) (l : List (Nat × α)) (i : Nat) (w : α) : Bool :=
  l.any (fun r => r.1 != i && uniqueClash ks r.2 w)

/-- `generic_index::enabled` (chainbase.hpp:659-661): an undo session is
active iff the stack is non-empty. -/
def enabled {α : Type} (g : generic_index α) : Bool :=
  !g.stack.isEmpty

/-- `generic_index::on_create` (chainbase.hpp:707-714). -/
def on_create {α : Type} (g : generic_index α) (i : Nat) : generic_index α :=
  match g.stack with
  | [] => g
  | h :: rest => { g with stack := { h with new_ids := sput i h.new_ids } :: rest }

/-- `generic_index::on_modify` (chainbase.hpp:663-680): record the pre-image
of `v` in `old_values` unless the object is session-created or already
recorded. -/
def on_modify {α : Type} (g : generic_index α) (v : Nat × α) : generic_index α :=
  match g.stack with
  | [] => g
  | h :: rest =>
    if h.new_ids.contains v.1 then g
    else if (mfind h.old_values v.1).isSome then g
    else { g with stack := { h with old_values := mput v h.old_values } :: rest }

/-- `generic_index::on_remove` (chainbase.hpp:682-705). -/
def on_remove {α : Type} (g : generic_index α) (v : Nat × α) : generic_index α :=
  match g.stack with
  | [] => g
  | h :: rest =>
    if h.new_ids.contains v.1 then
      { g with stack := { h with new_ids := sdel v.1 h.new_ids } :: rest }
    else
      match mfind h.old_values v.1 with
      | some x =>
        { g with stack := { h with
            removed_values := mput (v.1, x) h.removed_values,
            old_values := mdel v.1 h.old_values } :: rest }
      | none =>
        if (mfind h.removed_values v.1).isSome then g
        else { g with stack := { h with removed_values := mput v h.removed_values } :: rest }

/-- `generic_index::emplace` (chainbase.hpp:294-318).  The constructor is a
function of the assigned id (the C++ lambda sets `v.id = new_id` and then
runs the client constructor on `v`).  On a uniqueness failure the container
is untouched and the exception leaves `next_id` unincremented. -/
def emplace {α : Type} (ks : List (α → Nat)) (g : generic_index α) (c : Nat → α) :
    generic_index α × Except Err (Nat × α) :=
  let v : Nat × α := (g.next_id, c g.next_id)
  if insClash ks g.indices v then (g, Except.error Err.uniqueness)
  else
    let g1 : generic_index α :=
      { g with indices := mput v g.indices, next_id := g.next_id + 1 }
    (on_create g1 v.1, Except.ok v)

/-- `generic_index::modify` (chainbase.hpp:320-336): record the pre-image via
`on_modify`, then `_indices.modify`.  Per `boost::multi_index` semantics a
failed rearrangement erases the element; the C++ then throws. -/
def modify {α : Type} (ks : List (α → Nat)) (g : generic_index α) (i : Nat) (m : α → α) :
    generic_index α × Except Err Unit :=
  match mfind g.indices i with
  | none => (g, Except.error Err.precond)
  | some cur =>
    let g1 := on_modify g (i, cur)
    let w := m cur
    if modClash ks g1.indices i w then
      ({ g1 with indices := mdel i g1.indices }, Except.error Err.uniqueness)
    else
      ({ g1 with indices := mset i w g1.indices }, Except.ok ())

/-- `generic_index::remove` (chainbase.hpp:338-344). -/
def remove {α : Type} (g : generic_index α) (i : Nat) : generic_index α × Except Err Unit :=
  match mfind g.indices i with
  | none => (g, Except.error Err.precond)
  | some cur =>
    let g1 := on_remove g (i, cur)
    ({ g1 with indices := mdel i g1.indices }, Except.ok ())

/-- `generic_index::session` (chainbase.hpp:373-433): the RAII rollback
handle, with its `_apply` ("armed") flag and captured `_revision`. -/
structure session where
  apply : Bool
  revision : Int
  deriving DecidableEq, Repr

/-- The private session constructor (chainbase.hpp:424-428): `_apply` starts
`true` and is cleared when the captured revision is `-1`. -/
def mkSession (rev : Int) : session :=
  { apply := decide (rev ≠ -1), revision := rev }

/-- The move constructor (chainbase.hpp:375-377): the new handle takes the
`_apply` bit and the moved-from handle is disarmed.  `_revision` is *not* in
the member-init list, so the new handle keeps the default value `0`.
Returns (new handle, moved-from handle). -/
def session.moveFrom (s : session) : session × session :=
  ({ apply := s.apply, revision := 0 }, { s with apply := false })

/-- `session::push` (chainbase.hpp:386-388). -/
def session.push (s : session) : session :=
  { s with apply := false }

/-- `generic_index::start_undo_session` (chainbase.hpp:435-444). -/
def start_undo_session {α : Type} (g : generic_index α) (e : Bool) :
    generic_index α × session :=
  if e then
    let g1 : generic_index α :=
      { g with
        stack := { old_values := [], removed_values := [], new_ids := [],
                   old_next_id := g.next_id, revision := g.revision + 1 } :: g.stack,
        revision := g.revision + 1 }
    (g1, mkSession (g.revision + 1))
  else (g, mkSession (-1))

/-- The `old_values` loop of `undo` (chainbase.hpp:466-473): write each
pre-image back through the container's in-place modify; a missing id
(dereferencing `end()`) or a rejected rearrangement throws. -/
def restoreOlds {α : Type} (ks : List (α → Nat)) :
    List (Nat × α) → List (Nat × α) → Except Err (List (Nat × α))
  | [], idx => Except.ok idx
  | x :: rest, idx =>
    if (mfind idx x.1).isSome then
      if modClash ks idx x.1 x.2 then Except.error Err.stateCorrupt
      else restoreOlds ks rest (mset x.1 x.2 idx)
    else Except.error Err.stateCorrupt

/-- The `new_ids` loop of `undo` (chainbase.hpp:475-477): erase each object
created in the session. -/
def eraseNews {α : Type} : List Nat → List (Nat × α) → Except Err (List (Nat × α))
  | [], idx => Except.ok idx
  | i :: rest, idx =>
    if (mfind idx i).isSome then eraseNews rest (mdel i idx)
    else Except.error Err.stateCorrupt

/-- The `removed_values` loop of `undo` (chainbase.hpp:480-485): reinsert
each removed pre-image; a rejected insertion throws. -/
def reinsertRemoved {α : Type} (ks : List (α → Nat)) :
    List (Nat × α) → List (Nat × α) → Except Err (List (Nat × α))
  | [], idx => Except.ok idx
  | x :: rest, idx =>
    if insClash ks idx x then Except.error Err.stateCorrupt
    else reinsertRemoved ks rest (mput x idx)

/-- `generic_index::undo` (chainbase.hpp:459-489): restore the pre-images of
modified objects, erase the session-created objects, restore `next_id`,
reinsert the removed objects, then pop the state and decrement the
revision.  A throw in any loop propagates. -/
def undo {α : Type} (ks : List (α → Nat)) (g : generic_index α) :
    Except Err (generic_index α) :=
  match g.stack with
  | [] => Except.ok g
  | h :: rest =>
    match restoreOlds ks h.old_values g.indices with
    | Except.error e => Except.error e
    | Except.ok i1 =>
      match eraseNews h.new_ids i1 with
      | Except.error e => Except.error e
      | Except.ok i2 =>
        match reinsertRemoved ks h.removed_values i2 with
        | Except.error e => Except.error e
        | Except.ok i3 =>
          Except.ok { stack := rest, revision := g.revision - 1,
                      next_id := h.old_next_id, indices := i3 }

/-- `session::undo` (chainbase.hpp:398-403). -/
def session.undo {α : Type} (ks : List (α → Nat)) (s : session) (g : generic_index α) :
    (session × Except Err (generic_index α)) :=
  if s.apply then ({ s with apply := false }, Chainbase.undo ks g)
  else ({ s with apply := false }, Except.ok g)

/-- The session destructor (chainbase.hpp:379-383): an armed handle rolls the
index back on drop. -/
def session.drop {α : Type} (ks : List (α → Nat)) (s : session) (g : generic_index α) :
    Except Err (generic_index α) :=
  if s.apply then Chainbase.undo ks g else Except.ok g

/-- The `state.old_values` merge loop of `squash` (chainbase.hpp:551-564). -/
def mergeOlds {α : Type} (bOld : List (Nat × α)) (a : undo_state α) : undo_state α :=
  match bOld with
  | [] => a
  | x :: rest =>
    mergeOlds rest
      (if a.new_ids.contains x.1 then a
       else if (mfind a.old_values x.1).isSome then a
       else { a with old_values := mput x a.old_values })

/-- The `state.new_ids` merge loop of `squash` (chainbase.hpp:567-569). -/
def mergeNews {α : Type} (bNew : List Nat) (a : undo_state α) : undo_state α :=
  match bNew with
  | [] => a
  | i :: rest => mergeNews rest { a with new_ids := sput i a.new_ids }

/-- The `state.removed_values` merge loop of `squash` (chainbase.hpp:572-589). -/
def mergeRemoved {α : Type} (bRem : List (Nat × α)) (a : undo_state α) : undo_state α :=
  match bRem with
  | [] => a
  | x :: rest =>
    mergeRemoved rest
      (if a.new_ids.contains x.1 then { a with new_ids := sdel x.1 a.new_ids }
       else
         match mfind a.old_values x.1 with
         | some y =>
           { a with removed_values := mput (x.1, y) a.removed_values,
                    old_values := mdel x.1 a.old_values }
         | none => { a with removed_values := mput x a.removed_values })

/-- `generic_index::squash` (chainbase.hpp:497-593).  With exactly one state
the C++ takes the `pop_front` shortcut and — unlike the other branch — does
*not* decrement `_revision`. -/
def squash {α : Type} (g : generic_index α) : generic_index α :=
  match g.stack with
  | [] => g
  | [_] => { g with stack := [] }
  | b :: a :: rest =>
    let a1 := mergeRemoved b.removed_values (mergeNews b.new_ids (mergeOlds b.old_values a))
    { g with stack := a1 :: rest, revision := g.revision - 1 }

/-- `session::squash` (chainbase.hpp:391-396). -/
def session.squash {α : Type} (s : session) (g : generic_index α) :
    (session × generic_index α) :=
  if s.apply then ({ s with apply := false }, Chainbase.squash g)
  else ({ s with apply := false }, g)

/-- The pop loop of `commit` (chainbase.hpp:598-602) on the newest-first
stack: pop the oldest state (the C++ `_stack[0]`) while its revision is at
most `r`. -/
def commitList {α : Type} (r : Int) : List (undo_state α) → List (undo_state α)
  | [] => []
  | s :: rest =>
    let rest1 := commitList r rest
    if rest1.isEmpty && decide (s.revision ≤ r) then [] else s :: rest1

/-- `generic_index::commit` (chainbase.hpp:598-602). -/
def commit {α : Type} (g : generic_index α) (r : Int) : generic_index α :=
  { g with stack := commitList r g.stack }

/-- The loop body of `undo_all` with explicit fuel. -/
def undoAllFuel {α : Type} (ks : List (α → Nat)) :
    Nat → generic_index α → Except Err (generic_index α)
  | 0, g => Except.ok g
  | n + 1, g => if enabled g then (undo ks g).bind (undoAllFuel ks n) else Except.ok g

/-- `generic_index::undo_all` (chainbase.hpp:607-611): undo while enabled.
Each successful `undo` pops one state, so `stack.length` steps suffice. -/
def undo_all {α : Type} (ks : List (α → Nat)) (g : generic_index α) :
    Except Err (generic_index α) :=
  undoAllFuel ks g.stack.length g

/-- Invariant I1: in one undo state an id is tracked in at most one of
`new_ids`, `old_values`, `removed_values`. -/
def disjointState {α : Type} (h : undo_state α) : Prop :=
  ∀ i, (i ∈ h.new_ids → mfind h.old_values i = none ∧ mfind h.removed_values i = none) ∧
    (mfind h.old_values i = none ∨ mfind h.removed_values i = none)

/-- Well-formed container snapshot: ids strictly sorted and below `next_id`. -/
structure SnapOk {α : Type} (idx : List (Nat × α)) (nid : Nat) : Prop where
  sorted : KeysSorted idx
  bound : ∀ y ∈ idx, y.1 < nid

/-- The undo state `h` faithfully describes the session from snapshot
`(preIdx, preNid)` to the current snapshot `(curIdx, curNid)`. -/
structure HInv {α : Type} (preIdx : List (Nat × α)) (preNid : Nat)
    (h : undo_state α) (curIdx : List (Nat × α)) (curNid : Nat) : Prop where
  oldSorted : KeysSorted h.old_values
  remSorted : KeysSorted h.removed_values
  newSorted : NatSorted h.new_ids
  disj : disjointState h
  nextId : h.old_next_id = preNid
  nidLe : preNid ≤ curNid
  oldVal : ∀ i x, mfind h.old_values i = some x →
    mfind preIdx i = some x ∧ (mfind curIdx i).isSome ∧ i < preNid
  newVal : ∀ i, i ∈ h.new_ids → preNid ≤ i ∧ i < curNid ∧ (mfind curIdx i).isSome
  remVal : ∀ i x, mfind h.removed_values i = some x →
    mfind preIdx i = some x ∧ mfind curIdx i = none ∧ i < preNid
  untouched : ∀ i, i ∉ h.new_ids → mfind h.old_values i = none →
    mfind h.removed_values i = none → mfind curIdx i = mfind preIdx i

/-! ### Reachability -/

/-- One successful mutation (`emplace` / `modify` / `remove`). -/
inductive SessStep {α : Type} (ks : List (α → Nat)) :
    generic_index α → generic_index α → Prop where
  | emp {g g1 : generic_index α} {c : Nat → α} {v : Nat × α} :
      emplace ks g c = (g1, Except.ok v) → SessStep ks g g1
  | mod {g g1 : generic_index α} {i : Nat} {m : α → α} :
      modify ks g i m = (g1, Except.ok ()) → SessStep ks g g1
  | rem {g g1 : generic_index α} {i : Nat} :
      remove g i = (g1, Except.ok ()) → SessStep ks g g1

/-- States produced from `g0` by `start_undo_session(true)` followed by any
sequence of successful mutations. -/
def SessReach {α : Type} (ks : List (α → Nat)) (g0 g : generic_index α) : Prop :=
  Relation.ReflTransGen (SessStep ks) (start_undo_session g0 true).1 g

/-- The session invariant: the head undo state records the delta from the
session entry snapshot `g0`. -/
def SInv {α : Type} (g0 g : generic_index α) : Prop :=
  SnapOk g.indices g.next_id ∧ g.revision = g0.revision + 1 ∧
  ∃ h, g.stack = h :: g0.stack ∧ HInv g0.indices g0.next_id h g.indices g.next_id

/-- One type-erased operation on the index, succeeding (exceptions abort the
operation sequence per the propagation policy of the spec). -/
inductive GStep {α : Type} (ks : List (α → Nat)) :
    generic_index α → generic_index α → Prop where
  | data {g g1 : generic_index α} : SessStep ks g g1 → GStep ks g g1
  | start (g : generic_index α) (e : Bool) : GStep ks g (start_undo_session g e).1
  | und {g g1 : generic_index α} : undo ks g = Except.ok g1 → GStep ks g g1
  | sq (g : generic_index α) : GStep ks g (squash g)
  | com (g : generic_index α) (r : Int) : GStep ks g (commit g r)

/-- Reachable from a freshly constructed `generic_index`. -/
def Reach {α : Type} (ks : List (α → Nat)) (g : generic_index α) : Prop :=
  Relation.ReflTransGen (GStep ks) (ginit α) g

/-- Every undo state on the stack records the delta between two adjacent
snapshots; the chain ends at the current snapshot. -/
def StackInv {α : Type} : List (undo_state α) → List (Nat × α) → Nat → Prop
  | [], _, _ => True
  | h :: rest, curIdx, curNid =>
    ∃ preIdx preNid, SnapOk preIdx preNid ∧ HInv preIdx preNid h curIdx curNid ∧
      StackInv rest preIdx preNid

/-- I3: revisions on the stack are contiguous, ending at the current
revision (newest first). -/
def RevInv {α : Type} : List (undo_state α) → Int → Prop
  | [], _ => True
  | h :: rest, r => h.revision = r ∧ RevInv rest (r - 1)

/-- The global invariant of a `generic_index`. -/
def GInv {α : Type} (g : generic_index α) : Prop :=
  SnapOk g.indices g.next_id ∧ StackInv g.stack g.indices g.next_id ∧
  RevInv g.stack g.revision

/-- The head undo state's `old_values` map (empty map when no session is
active). -/
def headOld {α : Type} (g : generic_index α) : List (Nat × α) :=
  match g.stack with
  | [] => []
  | h :: _ => h.old_values

/-! ## Concrete instances

Instantiations over `α := Nat` used to exercise the theorems on explicit
inputs.  `ksId` declares one unique secondary index, extracting the payload
itself (an object kind whose payload must be unique, e.g. an account name). -/

def ksId : List (Nat → Nat) := [fun v => v]

/-- Two objects created outside any session: id 0 payload 1, id 1 payload 2. -/
def c1base : generic_index Nat :=
  (emplace ksId (emplace ksId (ginit Nat) (fun _ => 1)).1 (fun _ => 2)).1

/-- One session: give object 0 payload 3, then give object 1 payload 1
(both `modify` calls succeed: no collision at the time of each call). -/
def c1run : generic_index Nat :=
  (modify ksId (modify ksId (start_undo_session c1base true).1 0 (fun _ => 3)).1
    1 (fun _ => 1)).1

/-- A pre-session state for the no-secondary-index round trips. -/
def w1g0 : generic_index Nat :=
  { stack := [], revision := 0, next_id := 1, indices := [(0, 5)] }

def w1s1 : generic_index Nat :=
  (emplace [] (start_undo_session w1g0 true).1 (fun _ => 7)).1

def w1s2 : generic_index Nat := (modify [] w1s1 0 (fun _ => 9)).1

def w1run : generic_index Nat := (remove w1s2 0).1

/-- Outer session of the squash counterexample: give object 0 payload 3. -/
def c2mid : generic_index Nat :=
  (modify ksId (start_undo_session c1base true).1 0 (fun _ => 3)).1

/-- Inner session: give object 1 payload 1, then squash into the outer. -/
def c2run : generic_index Nat :=
  (modify ksId (start_undo_session c2mid true).1 1 (fun _ => 1)).1

def w2mid : generic_index Nat :=
  (modify [] (start_undo_session w1g0 true).1 0 (fun _ => 8)).1

def w2run : generic_index Nat :=
  (emplace [] (start_undo_session w2mid true).1 (fun _ => 4)).1

/-- Two live objects with unique payloads 5 and 7. -/
def c3g : generic_index Nat :=
  (emplace ksId (emplace ksId (ginit Nat) (fun _ => 5)).1 (fun _ => 7)).1

/-- A short history exercising sessions, mutations and a squash. -/
def c4mid : generic_index Nat :=
  (emplace [] (start_undo_session (ginit Nat) true).1 (fun _ => 3)).1

def c4run : generic_index Nat :=
  squash (modify [] (start_undo_session c4mid true).1 0 (fun _ => 6)).1

def w5g0 : generic_index Nat :=
  { stack := [], revision := 0, next_id := 1, indices := [(0, 10)] }

def w5s1 : generic_index Nat := (start_undo_session w5g0 true).1

def w6run : generic_index Nat :=
  (emplace [] (start_undo_session
    (emplace [] (start_undo_session (ginit Nat) true).1 (fun _ => 3)).1 true).1
    (fun _ => 4)).1

/-- A single-state stack: a freshly started session on a fresh index. -/
def c7g : generic_index Nat := (start_undo_session (ginit Nat) true).1

def c10g : generic_index Nat :=
  { stack := [], revision := 5, next_id := 3, indices := [(0, 1)] }

def w5m1 : generic_index Nat := (modify [] w5s1 0 (fun _ => 20)).1

def w5m2 : generic_index Nat := (modify [] w5m1 0 (fun _ => 30)).1

/-- The newest undo state (a fresh empty state when the stack is empty). -/
def headState {α : Type} (g : generic_index α) : undo_state α :=
  match g.stack with
  | [] => { old_values := [], removed_values := [], new_ids := [],
            old_next_id := 0, revision := 0 }
  | h :: _ => h

/-! ## Theorems -/

theorem mfind_eq_none_of_forall {α : Type} {l : List (Nat × α)} {i : Nat}
    (h : ∀ y ∈ l, y.1 ≠ i) : mfind l i = none := by
  induction l with
  | nil => rfl
  | cons y rest ih =>
    have hy : y.1 ≠ i := h y (List.mem_cons_self _ _)
    simp only [mfind, if_neg (Ne.symm hy)]
    exact ih (fun z hz => h z (List.mem_cons_of_mem _ hz))

theorem mfind_mem {α : Type} {l : List (Nat × α)} {i : Nat} {x : α}
    (h : mfind l i = some x) : (i, x) ∈ l := by
  induction l with
  | nil => simp [mfind] at h
  | cons y rest ih =>
    by_cases hi : i = y.1
    · simp only [mfind, if_pos hi] at h
      cases h
      subst hi
      exact List.mem_cons_self _ _
    · simp only [mfind, if_neg hi] at h
      exact List.mem_cons_of_mem _ (ih h)

theorem mfind_mput_self {α : Type} {l : List (Nat × α)} (x : Nat × α)
    (h : mfind l x.1 = none) : mfind (mput x l) x.1 = some x.2 := by
  induction l with
  | nil => simp [mput, mfind]
  | cons y rest ih =>
    simp only [mfind] at h
    by_cases hxy : x.1 = y.1
    · simp [hxy] at h
    · simp only [if_neg hxy] at h
      by_cases hlt : x.1 < y.1
      · simp [mput, hlt, mfind]
      · simp only [mput, if_neg hlt, if_neg hxy, mfind, if_neg hxy]
        exact ih h

theorem mfind_mput_of_ne {α : Type} {l : List (Nat × α)} {x : Nat × α} {i : Nat}
    (h : i ≠ x.1) : mfind (mput x l) i = mfind l i := by
  induction l with
  | nil => simp [mput, mfind, if_neg h]
  | cons y rest ih =>
    by_cases hlt : x.1 < y.1
    · simp [mput, hlt, mfind, if_neg h]
    · by_cases hxy : x.1 = y.1
      · simp [mput, hlt, hxy]
      · simp only [mput, if_neg hlt, if_neg hxy, mfind]
        by_cases hiy : i = y.1
        · simp [hiy]
        · simp [hiy, ih]

theorem mput_of_present {α : Type} {l : List (Nat × α)} {x : Nat × α}
    (hs : KeysSorted l) (h : (mfind l x.1).isSome) : mput x l = l := by
  induction l with
  | nil => simp [mfind] at h
  | cons y rest ih =>
    by_cases hxy : x.1 = y.1
    · have hnlt : ¬ x.1 < y.1 := by omega
      simp only [mput, if_neg hnlt, if_pos hxy]
    · simp only [mfind, if_neg hxy] at h
      obtain ⟨v, hv⟩ := Option.isSome_iff_exists.mp h
      have hmem := mfind_mem hv
      have hgt : y.1 < x.1 := (List.pairwise_cons.mp hs).1 (x.1, v) hmem
      have h1 : ¬ x.1 < y.1 := by omega
      simp only [mput, if_neg h1, if_neg hxy]
      rw [ih (List.pairwise_cons.mp hs).2 (by rw [hv]; rfl)]

theorem mfind_mset_self {α : Type} {l : List (Nat × α)} {i : Nat} {v : α}
    (h : (mfind l i).isSome) : mfind (mset i v l) i = some v := by
  induction l with
  | nil => simp [mfind] at h
  | cons y rest ih =>
    by_cases hiy : i = y.1
    · simp [mset, hiy, mfind]
    · simp only [mfind, if_neg hiy] at h
      simp only [mset, if_neg (Ne.symm hiy), mfind, if_neg hiy]
      exact ih h

theorem mfind_mset_of_ne {α : Type} {l : List (Nat × α)} {i j : Nat} {v : α}
    (h : j ≠ i) : mfind (mset i v l) j = mfind l j := by
  induction l with
  | nil => simp [mset]
  | cons y rest ih =>
    by_cases hyi : y.1 = i
    · simp only [mset, if_pos hyi, mfind]
      rw [if_neg (by omega : ¬ j = i), if_neg (by omega : ¬ j = y.1)]
    · simp only [mset, if_neg hyi, mfind]
      by_cases hjy : j = y.1
      · simp [hjy]
      · simp [hjy, ih]

theorem mfind_mset_absent {α : Type} {l : List (Nat × α)} {i : Nat} {v : α}
    (h : mfind l i = none) : mfind (mset i v l) i = none := by
  induction l with
  | nil => simp [mset, mfind]
  | cons y rest ih =>
    simp only [mfind] at h
    by_cases hiy : i = y.1
    · simp [hiy] at h
    · simp only [if_neg hiy] at h
      simp only [mset, if_neg (Ne.symm hiy), mfind, if_neg hiy]
      exact ih h

theorem mfind_mdel_self {α : Type} (l : List (Nat × α)) (i : Nat) :
    mfind (mdel i l) i = none := by
  induction l with
  | nil => rfl
  | cons y rest ih =>
    by_cases hyi : y.1 = i
    · simpa [mdel, hyi] using ih
    · simp only [mdel, if_neg hyi, mfind, if_neg (Ne.symm hyi)]
      exact ih

theorem mfind_mdel_of_ne {α : Type} {l : List (Nat × α)} {i j : Nat}
    (h : j ≠ i) : mfind (mdel i l) j = mfind l j := by
  induction l with
  | nil => rfl
  | cons y rest ih =>
    by_cases hyi : y.1 = i
    · simp only [mdel, if_pos hyi, mfind, if_neg (by omega : ¬ j = y.1)]
      exact ih
    · simp only [mdel, if_neg hyi, mfind]
      by_cases hjy : j = y.1
      · simp [hjy]
      · simp [hjy, ih]

theorem sdel_not_mem (i : Nat) (s : List Nat) : i ∉ sdel i s := by
  induction s with
  | nil => simp [sdel]
  | cons j rest ih =>
    by_cases hji : j = i
    · simpa [sdel, hji] using ih
    · simp [sdel, hji, ih, Ne.symm hji]

theorem mem_sdel_of_ne {s : List Nat} {i j : Nat} (h : j ≠ i) :
    (j ∈ sdel i s) ↔ j ∈ s := by
  induction s with
  | nil => simp [sdel]
  | cons k rest ih =>
    by_cases hki : k = i
    · simp [sdel, hki, ih]
      omega
    · simp [sdel, hki, ih]

theorem mem_sput_self (i : Nat) (s : List Nat) : i ∈ sput i s := by
  induction s with
  | nil => simp [sput]
  | cons j rest ih =>
    by_cases hlt : i < j
    · simp [sput, hlt]
    · by_cases hij : i = j
      · simp [sput, hlt, hij]
      · simp [sput, hlt, hij, ih]

theorem mem_sput {s : List Nat} {i j : Nat} :
    (j ∈ sput i s) ↔ (j = i ∨ j ∈ s) := by
  induction s with
  | nil => simp [sput]
  | cons k rest ih =>
    by_cases hlt : i < k
    · simp [sput, hlt]
    · by_cases hik : i = k
      · simp [sput, hlt, hik]
      · simp [sput, hlt, hik, ih]
        tauto

/-! ## Ordered-map and ordered-set lemmas -/

theorem mem_mput {α : Type} {l : List (Nat × α)} {x y : Nat × α}
    (h : y ∈ mput x l) : y = x ∨ y ∈ l := by
  induction l with
  | nil =>
    simp only [mput, List.mem_singleton] at h
    exact Or.inl h
  | cons z rest ih =>
    simp only [List.mem_cons]
    by_cases hlt : x.1 < z.1
    · simp only [mput, if_pos hlt, List.mem_cons] at h
      tauto
    · by_cases hxz : x.1 = z.1
      · simp only [mput, if_neg hlt, if_pos hxz, List.mem_cons] at h
        tauto
      · simp only [mput, if_neg hlt, if_neg hxz, List.mem_cons] at h
        rcases h with h | h
        · tauto
        · rcases ih h with h1 | h1 <;> tauto

theorem mem_mset {α : Type} {l : List (Nat × α)} {i : Nat} {v : α} {y : Nat × α}
    (h : y ∈ mset i v l) : y ∈ l ∨ (y = (i, v) ∧ ∃ w, (i, w) ∈ l) := by
  induction l with
  | nil => simp [mset] at h
  | cons z rest ih =>
    by_cases hzi : z.1 = i
    · simp only [mset, if_pos hzi, List.mem_cons] at h
      rcases h with h | h
      · exact Or.inr ⟨h, z.2, by rw [← hzi]; exact List.mem_cons_self _ _⟩
      · exact Or.inl (List.mem_cons_of_mem _ h)
    · simp only [mset, if_neg hzi, List.mem_cons] at h
      rcases h with h | h
      · exact Or.inl (by simp [h])
      · rcases ih h with h1 | ⟨h1, w, hw⟩
        · exact Or.inl (List.mem_cons_of_mem _ h1)
        · exact Or.inr ⟨h1, w, List.mem_cons_of_mem _ hw⟩

theorem mdel_sublist {α : Type} (i : Nat) (l : List (Nat × α)) :
    List.Sublist (mdel i l) l := by
  induction l with
  | nil => simp [mdel]
  | cons y rest ih =>
    by_cases hyi : y.1 = i
    · simp only [mdel, if_pos hyi]
      exact List.Sublist.cons _ ih
    · simp only [mdel, if_neg hyi]
      exact List.Sublist.cons₂ _ ih

theorem mem_mdel {α : Type} {l : List (Nat × α)} {i : Nat} {y : Nat × α}
    (h : y ∈ mdel i l) : y ∈ l :=
  (mdel_sublist i l).mem h

theorem sdel_sublist (i : Nat) (s : List Nat) : List.Sublist (sdel i s) s := by
  induction s with
  | nil => simp [sdel]
  | cons j rest ih =>
    by_cases hji : j = i
    · simp only [sdel, if_pos hji]
      exact List.Sublist.cons _ ih
    · simp only [sdel, if_neg hji]
      exact List.Sublist.cons₂ _ ih

theorem ksorted_mput {α : Type} {l : List (Nat × α)} (x : Nat × α)
    (hs : KeysSorted l) : KeysSorted (mput x l) := by
  induction l with
  | nil => simp [mput, KeysSorted]
  | cons y rest ih =>
    rcases List.pairwise_cons.mp hs with ⟨hy, hrest⟩
    by_cases hlt : x.1 < y.1
    · simp only [mput, if_pos hlt]
      refine List.pairwise_cons.mpr ⟨?_, hs⟩
      intro z hz
      rcases List.mem_cons.mp hz with hz1 | hz1
      · rw [hz1]
        exact hlt
      · have := hy z hz1
        omega
    · by_cases hxy : x.1 = y.1
      · simpa [mput, hlt, hxy] using hs
      · simp only [mput, if_neg hlt, if_neg hxy]
        refine List.pairwise_cons.mpr ⟨?_, ih hrest⟩
        intro z hz
        rcases mem_mput hz with hz1 | hz1
        · subst hz1
          omega
        · exact hy z hz1

theorem ksorted_mset {α : Type} {l : List (Nat × α)} (i : Nat) (v : α)
    (hs : KeysSorted l) : KeysSorted (mset i v l) := by
  induction l with
  | nil => simp [mset, KeysSorted]
  | cons y rest ih =>
    rcases List.pairwise_cons.mp hs with ⟨hy, hrest⟩
    by_cases hyi : y.1 = i
    · simp only [mset, if_pos hyi]
      refine List.pairwise_cons.mpr ⟨?_, hrest⟩
      intro z hz
      have := hy z hz
      simpa [← hyi] using this
    · simp only [mset, if_neg hyi]
      refine List.pairwise_cons.mpr ⟨?_, ih hrest⟩
      intro z hz
      rcases mem_mset hz with hz1 | ⟨hz1, w, hw⟩
      · exact hy z hz1
      · subst hz1
        exact hy (i, w) hw

theorem ksorted_mdel {α : Type} (i : Nat) {l : List (Nat × α)}
    (hs : KeysSorted l) : KeysSorted (mdel i l) :=
  hs.sublist (mdel_sublist i l)

theorem natsorted_sput {s : List Nat} (i : Nat)
    (hs : NatSorted s) : NatSorted (sput i s) := by
  induction s with
  | nil => simp [sput, NatSorted]
  | cons j rest ih =>
    rcases List.pairwise_cons.mp hs with ⟨hj, hrest⟩
    by_cases hlt : i < j
    · simp only [sput, if_pos hlt]
      refine List.pairwise_cons.mpr ⟨?_, hs⟩
      intro z hz
      rcases List.mem_cons.mp hz with hz1 | hz1
      · omega
      · have := hj z hz1
        omega
    · by_cases hij : i = j
      · simpa [sput, hlt, hij] using hs
      · simp only [sput, if_neg hlt, if_neg hij]
        refine List.pairwise_cons.mpr ⟨?_, ih hrest⟩
        intro z hz
        rcases mem_sput.mp hz with hz1 | hz1
        · omega
        · exact hj z hz1

theorem natsorted_sdel {s : List Nat} (i : Nat)
    (hs : NatSorted s) : NatSorted (sdel i s) :=
  hs.sublist (sdel_sublist i s)

theorem mfind_head {α : Type} (y : Nat × α) (rest : List (Nat × α)) :
    mfind (y :: rest) y.1 = some y.2 := by
  simp [mfind]

theorem mfind_tail_none {α : Type} {y : Nat × α} {rest : List (Nat × α)}
    (hs : KeysSorted (y :: rest)) : mfind rest y.1 = none := by
  apply mfind_eq_none_of_forall
  intro z hz
  have := (List.pairwise_cons.mp hs).1 z hz
  omega

theorem mfind_below_head {α : Type} {y : Nat × α} {rest : List (Nat × α)} {i : Nat}
    (hs : KeysSorted (y :: rest)) (hlt : i < y.1) : mfind (y :: rest) i = none := by
  apply mfind_eq_none_of_forall
  intro z hz
  rcases List.mem_cons.mp hz with hz1 | hz1
  · rw [hz1]
    omega
  · have := (List.pairwise_cons.mp hs).1 z hz1
    omega

/-- Two sorted maps with the same lookup function are equal. -/
theorem msorted_ext {α : Type} {l1 l2 : List (Nat × α)}
    (h1 : KeysSorted l1) (h2 : KeysSorted l2)
    (h : ∀ i, mfind l1 i = mfind l2 i) : l1 = l2 := by
  induction l1 generalizing l2 with
  | nil =>
    cases l2 with
    | nil => rfl
    | cons z r2 =>
      have := h z.1
      rw [mfind_head] at this
      simp [mfind] at this
  | cons y r1 ih =>
    cases l2 with
    | nil =>
      have := h y.1
      rw [mfind_head] at this
      simp [mfind] at this
    | cons z r2 =>
      have hkey : y.1 = z.1 := by
        by_contra hne
        rcases Nat.lt_or_ge y.1 z.1 with hlt | hge
        · have := h y.1
          rw [mfind_head, mfind_below_head h2 hlt] at this
          exact Option.noConfusion this
        · have hlt2 : z.1 < y.1 := by omega
          have := h z.1
          rw [mfind_head, mfind_below_head h1 hlt2] at this
          exact Option.noConfusion this.symm
      have hval : y.2 = z.2 := by
        have := h y.1
        rw [mfind_head, hkey, mfind_head] at this
        exact Option.some.inj this
      have hyz : y = z := Prod.ext hkey hval
      subst hyz
      have htails : ∀ i, mfind r1 i = mfind r2 i := by
        intro i
        by_cases hiy : i = y.1
        · rw [hiy, mfind_tail_none h1, mfind_tail_none h2]
        · have := h i
          simpa [mfind, hiy] using this
      rw [ih (List.pairwise_cons.mp h1).2 (List.pairwise_cons.mp h2).2 htails]

theorem natsorted_head_not_mem_tail {j : Nat} {rest : List Nat}
    (hs : NatSorted (j :: rest)) : j ∉ rest := by
  intro hmem
  have := (List.pairwise_cons.mp hs).1 j hmem
  omega

/-- Two sorted sets with the same membership are equal. -/
theorem ssorted_ext {s1 s2 : List Nat}
    (h1 : NatSorted s1) (h2 : NatSorted s2)
    (h : ∀ i, i ∈ s1 ↔ i ∈ s2) : s1 = s2 := by
  induction s1 generalizing s2 with
  | nil =>
    cases s2 with
    | nil => rfl
    | cons z r2 =>
      have := (h z).mpr (List.mem_cons_self _ _)
      simp at this
  | cons j r1 ih =>
    cases s2 with
    | nil =>
      have := (h j).mp (List.mem_cons_self _ _)
      simp at this
    | cons z r2 =>
      have hkey : j = z := by
        by_contra hne
        rcases Nat.lt_or_ge j z with hlt | hge
        · have hj := (h j).mp (List.mem_cons_self _ _)
          rcases List.mem_cons.mp hj with hj1 | hj1
          · omega
          · have := (List.pairwise_cons.mp h2).1 j hj1
            omega
        · have hz := (h z).mpr (List.mem_cons_self _ _)
          rcases List.mem_cons.mp hz with hz1 | hz1
          · omega
          · have := (List.pairwise_cons.mp h1).1 z hz1
            omega
      subst hkey
      have htails : ∀ i, i ∈ r1 ↔ i ∈ r2 := by
        intro i
        by_cases hij : i = j
        · subst hij
          constructor
          · intro hmem
            exact absurd hmem (natsorted_head_not_mem_tail h1)
          · intro hmem
            exact absurd hmem (natsorted_head_not_mem_tail h2)
        · have := h i
          simpa [hij] using this
      rw [ih (List.pairwise_cons.mp h1).2 (List.pairwise_cons.mp h2).2 htails]

/-! ## Invariants

`HInv preIdx preNid h curIdx curNid` says that the undo state `h` correctly
records the difference between the container snapshot `(preIdx, preNid)` at
its session entry and the current snapshot `(curIdx, curNid)`.  `SnapOk`
is the basic well-formedness of a snapshot. -/

theorem contains_iff {s : List Nat} {i : Nat} : s.contains i = true ↔ i ∈ s := by
  induction s with
  | nil => simp
  | cons j rest ih => simp

theorem SnapOk.find_big {α : Type} {idx : List (Nat × α)} {nid : Nat}
    (hs : SnapOk idx nid) {i : Nat} (hi : nid ≤ i) : mfind idx i = none := by
  apply mfind_eq_none_of_forall
  intro y hy
  have := hs.bound y hy
  omega

/-- A fresh undo state records the identity delta
(pushed by `start_undo_session`). -/
theorem HInv_fresh {α : Type} {idx : List (Nat × α)} {nid : Nat} (r : Int) :
    HInv idx nid
      { old_values := [], removed_values := [], new_ids := [],
        old_next_id := nid, revision := r } idx nid := by
  refine ⟨?_, ?_, ?_, ?_, rfl, le_refl _, ?_, ?_, ?_, ?_⟩
  · exact List.Pairwise.nil
  · exact List.Pairwise.nil
  · exact List.Pairwise.nil
  · intro i
    exact ⟨fun hmem => absurd hmem (List.not_mem_nil i), Or.inl rfl⟩
  · intro i x hx
    exact absurd hx (by simp [mfind])
  · intro i hmem
    exact absurd hmem (List.not_mem_nil i)
  · intro i x hx
    exact absurd hx (by simp [mfind])
  · intro i _ _ _
    rfl

/-! ### Unfolding lemmas for the operations -/

theorem emplace_ok_spec {α : Type} {ks : List (α → Nat)} {g g1 : generic_index α}
    {c : Nat → α} {v : Nat × α}
    (hstep : emplace ks g c = (g1, Except.ok v)) :
    v = (g.next_id, c g.next_id) ∧
    g1.indices = mput (g.next_id, c g.next_id) g.indices ∧
    g1.next_id = g.next_id + 1 ∧
    g1.revision = g.revision ∧
    mfind g.indices g.next_id = none ∧
    (g.stack = [] → g1.stack = []) ∧
    (∀ h rest, g.stack = h :: rest →
      g1.stack = { h with new_ids := sput g.next_id h.new_ids } :: rest) := by
  by_cases hcl : insClash ks g.indices (g.next_id, c g.next_id)
  · rw [emplace] at hstep
    simp only [hcl, if_true] at hstep
    exact absurd (congrArg Prod.snd hstep) (by simp)
  · have habs : mfind g.indices g.next_id = none := by
      by_contra hne
      have : (mfind g.indices g.next_id).isSome := by
        cases hfind : mfind g.indices g.next_id with
        | none => exact absurd hfind hne
        | some w => simp
      exact hcl (by simp [insClash, this])
    rw [emplace] at hstep
    simp only [hcl, if_false] at hstep
    have hg1 : g1 = on_create
        { g with indices := mput (g.next_id, c g.next_id) g.indices,
                 next_id := g.next_id + 1 } g.next_id := by
      have := congrArg Prod.fst hstep
      simpa using this.symm
    have hv : v = (g.next_id, c g.next_id) := by
      have := congrArg Prod.snd hstep
      simpa using (Except.ok.inj this).symm
    subst hg1
    cases hstack : g.stack with
    | nil =>
      refine ⟨hv, ?_, ?_, ?_, habs, ?_, ?_⟩ <;>
        simp [on_create, hstack]
    | cons h rest =>
      refine ⟨hv, ?_, ?_, ?_, habs, ?_, ?_⟩ <;>
        simp [on_create, hstack]

theorem on_modify_fields {α : Type} (g : generic_index α) (v : Nat × α) :
    (on_modify g v).indices = g.indices ∧ (on_modify g v).next_id = g.next_id ∧
    (on_modify g v).revision = g.revision := by
  cases hstack : g.stack with
  | nil => simp [on_modify, hstack]
  | cons h rest =>
    by_cases h1 : v.1 ∈ h.new_ids
    · simp [on_modify, hstack, h1]
    · by_cases h2 : (mfind h.old_values v.1).isSome = true
      · simp [on_modify, hstack, h1, h2]
      · simp [on_modify, hstack, h1, h2]

theorem on_remove_fields {α : Type} (g : generic_index α) (v : Nat × α) :
    (on_remove g v).indices = g.indices ∧ (on_remove g v).next_id = g.next_id ∧
    (on_remove g v).revision = g.revision := by
  cases hstack : g.stack with
  | nil => simp [on_remove, hstack]
  | cons h rest =>
    by_cases h1 : v.1 ∈ h.new_ids
    · simp [on_remove, hstack, h1]
    · cases h2 : mfind h.old_values v.1 with
      | some x => simp [on_remove, hstack, h1, h2]
      | none =>
        by_cases h3 : (mfind h.removed_values v.1).isSome = true
        · simp [on_remove, hstack, h1, h2, h3]
        · simp [on_remove, hstack, h1, h2, h3]

theorem modify_ok_spec {α : Type} {ks : List (α → Nat)} {g g1 : generic_index α}
    {i : Nat} {m : α → α}
    (hstep : modify ks g i m = (g1, Except.ok ())) :
    ∃ cur, mfind g.indices i = some cur ∧
      g1.indices = mset i (m cur) g.indices ∧
      g1.next_id = g.next_id ∧
      g1.revision = g.revision ∧
      g1.stack = (on_modify g (i, cur)).stack := by
  cases hfind : mfind g.indices i with
  | none =>
    rw [modify] at hstep
    simp only [hfind] at hstep
    exact absurd (congrArg Prod.snd hstep) (by simp)
  | some cur =>
    rw [modify] at hstep
    simp only [hfind] at hstep
    by_cases hcl : modClash ks (on_modify g (i, cur)).indices i (m cur) = true
    · rw [if_pos hcl] at hstep
      exact absurd (congrArg Prod.snd hstep) (by simp)
    · rw [if_neg hcl] at hstep
      injection hstep with hg1 hg2
      obtain ⟨ho1, ho2, ho3⟩ := on_modify_fields g (i, cur)
      have h4 : g1.stack = (on_modify g (i, cur)).stack := by rw [← hg1]
      have h5 : g1.indices = mset i (m cur) (on_modify g (i, cur)).indices := by rw [← hg1]
      have h6 : g1.next_id = (on_modify g (i, cur)).next_id := by rw [← hg1]
      have h7 : g1.revision = (on_modify g (i, cur)).revision := by rw [← hg1]
      exact ⟨cur, rfl, by rw [h5, ho1], by rw [h6, ho2], by rw [h7, ho3], h4⟩

theorem remove_ok_spec {α : Type} {g g1 : generic_index α} {i : Nat}
    (hstep : remove g i = (g1, Except.ok ())) :
    ∃ cur, mfind g.indices i = some cur ∧
      g1.indices = mdel i g.indices ∧
      g1.next_id = g.next_id ∧
      g1.revision = g.revision ∧
      g1.stack = (on_remove g (i, cur)).stack := by
  cases hfind : mfind g.indices i with
  | none =>
    rw [remove] at hstep
    simp only [hfind] at hstep
    exact absurd (congrArg Prod.snd hstep) (by simp)
  | some cur =>
    rw [remove] at hstep
    simp only [hfind] at hstep
    injection hstep with hg1 hg2
    obtain ⟨ho1, ho2, ho3⟩ := on_remove_fields g (i, cur)
    have h4 : g1.stack = (on_remove g (i, cur)).stack := by rw [← hg1]
    have h5 : g1.indices = mdel i (on_remove g (i, cur)).indices := by rw [← hg1]
    have h6 : g1.next_id = (on_remove g (i, cur)).next_id := by rw [← hg1]
    have h7 : g1.revision = (on_remove g (i, cur)).revision := by rw [← hg1]
    exact ⟨cur, rfl, by rw [h5, ho1], by rw [h6, ho2], by rw [h7, ho3], h4⟩

theorem mfind_mset_isSome {α : Type} (l : List (Nat × α)) (i : Nat) (v : α) (j : Nat) :
    (mfind (mset i v l) j).isSome = (mfind l j).isSome := by
  by_cases hj : j = i
  · subst hj
    cases hfind : mfind l j with
    | none => rw [mfind_mset_absent hfind]
    | some w =>
      rw [mfind_mset_self (by rw [hfind]; rfl)]
      rfl
  · rw [mfind_mset_of_ne hj]

theorem mfind_mput_self2 {α : Type} {l : List (Nat × α)} (i : Nat) (x : α)
    (h : mfind l i = none) : mfind (mput (i, x) l) i = some x :=
  mfind_mput_self (i, x) h

theorem SnapOk.find_lt {α : Type} {idx : List (Nat × α)} {nid : Nat}
    (hs : SnapOk idx nid) {i : Nat} {x : α} (h : mfind idx i = some x) : i < nid :=
  hs.bound (i, x) (mfind_mem h)

/-- A successful `emplace` on a state with an active session updates the
snapshot and only the head undo state, preserving `HInv`. -/
theorem emplace_ok_inv {α : Type} {ks : List (α → Nat)} {g g1 : generic_index α}
    {c : Nat → α} {v : Nat × α}
    (hstep : emplace ks g c = (g1, Except.ok v))
    {preIdx : List (Nat × α)} {preNid : Nat} {h : undo_state α} {rest : List (undo_state α)}
    (hstack : g.stack = h :: rest)
    (hpre : SnapOk preIdx preNid)
    (hcur : SnapOk g.indices g.next_id)
    (hh : HInv preIdx preNid h g.indices g.next_id) :
    g1.stack = { h with new_ids := sput g.next_id h.new_ids } :: rest ∧
    SnapOk g1.indices g1.next_id ∧
    HInv preIdx preNid { h with new_ids := sput g.next_id h.new_ids } g1.indices g1.next_id ∧
    g1.revision = g.revision := by
  obtain ⟨hv, hidx, hnid, hrev, habs, -, hst⟩ := emplace_ok_spec hstep
  have hstack1 := hst h rest hstack
  have holdn : mfind h.old_values g.next_id = none := by
    cases hfind : mfind h.old_values g.next_id with
    | none => rfl
    | some x =>
      have := (hh.oldVal _ _ hfind).2.2
      have := hh.nidLe
      omega
  have hremn : mfind h.removed_values g.next_id = none := by
    cases hfind : mfind h.removed_values g.next_id with
    | none => rfl
    | some x =>
      have := (hh.remVal _ _ hfind).2.2
      have := hh.nidLe
      omega
  refine ⟨hstack1, ⟨?_, ?_⟩, ?_, hrev⟩
  · rw [hidx]
    exact ksorted_mput _ hcur.sorted
  · intro y hy
    rw [hidx] at hy
    rw [hnid]
    rcases mem_mput hy with hy1 | hy1
    · rw [hy1]
      exact Nat.lt_succ_self _
    · have := hcur.bound y hy1
      omega
  refine ⟨hh.oldSorted, hh.remSorted, natsorted_sput _ hh.newSorted, ?_, hh.nextId, ?_, ?_, ?_, ?_, ?_⟩
  · intro i
    constructor
    · intro hmem
      rcases mem_sput.mp hmem with hi | hi
      · subst hi
        exact ⟨holdn, hremn⟩
      · exact (hh.disj i).1 hi
    · exact (hh.disj i).2
  · have := hh.nidLe
    rw [hnid]
    omega
  · intro i x hx
    obtain ⟨h1, h2, h3⟩ := hh.oldVal i x hx
    refine ⟨h1, ?_, h3⟩
    rw [hidx, mfind_mput_of_ne (by have := hh.nidLe; omega : i ≠ (g.next_id, c g.next_id).1)]
    exact h2
  · intro i hmem
    rcases mem_sput.mp hmem with hi | hi
    · subst hi
      refine ⟨hh.nidLe, by omega, ?_⟩
      rw [hidx, mfind_mput_self2 g.next_id (c g.next_id) habs]
      rfl
    · obtain ⟨h1, h2, h3⟩ := hh.newVal i hi
      refine ⟨h1, by rw [hnid]; omega, ?_⟩
      rw [hidx, mfind_mput_of_ne (by omega : i ≠ (g.next_id, c g.next_id).1)]
      exact h3
  · intro i x hx
    obtain ⟨h1, h2, h3⟩ := hh.remVal i x hx
    refine ⟨h1, ?_, h3⟩
    rw [hidx, mfind_mput_of_ne (by have := hh.nidLe; omega : i ≠ (g.next_id, c g.next_id).1)]
    exact h2
  · intro i hnew hold hrem
    have hine : i ≠ g.next_id := by
      intro heq
      exact hnew (heq ▸ mem_sput_self g.next_id h.new_ids)
    have hnew2 : i ∉ h.new_ids := fun hmem => hnew (mem_sput.mpr (Or.inr hmem))
    rw [hidx, mfind_mput_of_ne hine]
    exact hh.untouched i hnew2 hold hrem

/-- Replacing the payload of a live object that is session-created or whose
pre-image is already recorded leaves the head undo state adequate. -/
theorem HInv_mset_keep {α : Type} {preIdx : List (Nat × α)} {preNid : Nat}
    {h : undo_state α} {curIdx : List (Nat × α)} {curNid : Nat} {i : Nat} {cur w : α}
    (hh : HInv preIdx preNid h curIdx curNid)
    (hfind : mfind curIdx i = some cur)
    (hcase : i ∈ h.new_ids ∨ (mfind h.old_values i).isSome) :
    HInv preIdx preNid h (mset i w curIdx) curNid := by
  refine ⟨hh.oldSorted, hh.remSorted, hh.newSorted, hh.disj, hh.nextId, hh.nidLe, ?_, ?_, ?_, ?_⟩
  · intro j x hx
    obtain ⟨h1, h2, h3⟩ := hh.oldVal j x hx
    exact ⟨h1, by rw [mfind_mset_isSome]; exact h2, h3⟩
  · intro j hj
    obtain ⟨h1, h2, h3⟩ := hh.newVal j hj
    exact ⟨h1, h2, by rw [mfind_mset_isSome]; exact h3⟩
  · intro j x hx
    obtain ⟨h1, h2, h3⟩ := hh.remVal j x hx
    have hji : j ≠ i := by
      intro heq
      rw [heq, hfind] at h2
      exact Option.noConfusion h2
    exact ⟨h1, by rw [mfind_mset_of_ne hji]; exact h2, h3⟩
  · intro j hnew hold hrem
    have hji : j ≠ i := by
      intro heq
      subst heq
      rcases hcase with hc | hc
      · exact hnew hc
      · rw [hold] at hc
        exact Bool.noConfusion hc
    rw [mfind_mset_of_ne hji]
    exact hh.untouched j hnew hold hrem

/-- First modify of an untouched object: recording the pre-image in
`old_values` keeps the head undo state adequate. -/
theorem HInv_mset_record {α : Type} {preIdx : List (Nat × α)} {preNid : Nat}
    {h : undo_state α} {curIdx : List (Nat × α)} {curNid : Nat} {i : Nat} {cur w : α}
    (hh : HInv preIdx preNid h curIdx curNid)
    (hpre : SnapOk preIdx preNid)
    (hfind : mfind curIdx i = some cur)
    (hnew : i ∉ h.new_ids) (hold : mfind h.old_values i = none) :
    HInv preIdx preNid { h with old_values := mput (i, cur) h.old_values }
      (mset i w curIdx) curNid := by
  have hrem : mfind h.removed_values i = none := by
    cases hr : mfind h.removed_values i with
    | none => rfl
    | some x =>
      have := (hh.remVal i x hr).2.1
      rw [hfind] at this
      exact Option.noConfusion this
  have hprei : mfind preIdx i = some cur := by
    rw [← hh.untouched i hnew hold hrem]
    exact hfind
  refine ⟨ksorted_mput _ hh.oldSorted, hh.remSorted, hh.newSorted, ?_, hh.nextId, hh.nidLe,
    ?_, ?_, ?_, ?_⟩
  · intro j
    by_cases hji : j = i
    · subst hji
      exact ⟨fun hmem => absurd hmem hnew, Or.inr hrem⟩
    · have heq : mfind (mput (i, cur) h.old_values) j = mfind h.old_values j :=
        mfind_mput_of_ne hji
      exact ⟨fun hmem => ⟨by rw [heq]; exact ((hh.disj j).1 hmem).1, ((hh.disj j).1 hmem).2⟩,
        by rw [heq]; exact (hh.disj j).2⟩
  · intro j x hx
    by_cases hji : j = i
    · subst hji
      rw [mfind_mput_self2 j cur hold] at hx
      cases hx
      exact ⟨hprei, by rw [mfind_mset_isSome, hfind]; rfl, hpre.find_lt hprei⟩
    · rw [mfind_mput_of_ne hji] at hx
      obtain ⟨h1, h2, h3⟩ := hh.oldVal j x hx
      exact ⟨h1, by rw [mfind_mset_isSome]; exact h2, h3⟩
  · intro j hj
    obtain ⟨h1, h2, h3⟩ := hh.newVal j hj
    exact ⟨h1, h2, by rw [mfind_mset_isSome]; exact h3⟩
  · intro j x hx
    obtain ⟨h1, h2, h3⟩ := hh.remVal j x hx
    have hji : j ≠ i := by
      intro heq
      rw [heq, hfind] at h2
      exact Option.noConfusion h2
    exact ⟨h1, by rw [mfind_mset_of_ne hji]; exact h2, h3⟩
  · intro j hnew2 hold2 hrem2
    have hji : j ≠ i := by
      intro heq
      subst heq
      rw [mfind_mput_self2 j cur hold] at hold2
      exact Option.noConfusion hold2
    rw [mfind_mput_of_ne hji] at hold2
    rw [mfind_mset_of_ne hji]
    exact hh.untouched j hnew2 hold2 hrem2

/-- A successful `modify` preserves `HInv` on the head undo state. -/
theorem modify_ok_inv {α : Type} {ks : List (α → Nat)} {g g1 : generic_index α}
    {i : Nat} {m : α → α}
    (hstep : modify ks g i m = (g1, Except.ok ()))
    {preIdx : List (Nat × α)} {preNid : Nat} {h : undo_state α} {rest : List (undo_state α)}
    (hstack : g.stack = h :: rest)
    (hpre : SnapOk preIdx preNid)
    (hcur : SnapOk g.indices g.next_id)
    (hh : HInv preIdx preNid h g.indices g.next_id) :
    ∃ h1, g1.stack = h1 :: rest ∧ SnapOk g1.indices g1.next_id ∧
      HInv preIdx preNid h1 g1.indices g1.next_id ∧
      g1.revision = g.revision ∧ g1.next_id = g.next_id ∧
      h1.revision = h.revision := by
  obtain ⟨cur, hfind, hidx, hnid, hrev, hstk⟩ := modify_ok_spec hstep
  have hsnap : SnapOk g1.indices g1.next_id := by
    refine ⟨?_, ?_⟩
    · rw [hidx]
      exact ksorted_mset _ _ hcur.sorted
    · intro y hy
      rw [hidx] at hy
      rw [hnid]
      rcases mem_mset hy with hy1 | ⟨hy1, w, hw⟩
      · exact hcur.bound y hy1
      · rw [hy1]
        exact hcur.bound (i, w) hw
  by_cases hc1 : i ∈ h.new_ids
  · refine ⟨h, ?_, hsnap, ?_, hrev, hnid, rfl⟩
    · rw [hstk]
      simp [on_modify, hstack, hc1]
    · rw [hidx, hnid]
      exact HInv_mset_keep hh hfind (Or.inl hc1)
  · by_cases hc2 : (mfind h.old_values i).isSome = true
    · refine ⟨h, ?_, hsnap, ?_, hrev, hnid, rfl⟩
      · rw [hstk]
        simp [on_modify, hstack, hc1, hc2]
      · rw [hidx, hnid]
        exact HInv_mset_keep hh hfind (Or.inr hc2)
    · have hold : mfind h.old_values i = none := by
        cases ho : mfind h.old_values i with
        | none => rfl
        | some x => exact absurd (by rw [ho]; rfl) hc2
      refine ⟨{ h with old_values := mput (i, cur) h.old_values }, ?_, hsnap, ?_, hrev, hnid, rfl⟩
      · rw [hstk]
        simp [on_modify, hstack, hc1, hc2]
      · rw [hidx, hnid]
        exact HInv_mset_record hh hpre hfind hc1 hold

/-- Removing a session-created object: dropping the id from `new_ids`
(net no-op) keeps the head undo state adequate. -/
theorem HInv_del_new {α : Type} {preIdx : List (Nat × α)} {preNid : Nat}
    {h : undo_state α} {curIdx : List (Nat × α)} {curNid : Nat} {i : Nat} {cur : α}
    (hh : HInv preIdx preNid h curIdx curNid)
    (hpre : SnapOk preIdx preNid)
    (hfind : mfind curIdx i = some cur)
    (hnew : i ∈ h.new_ids) :
    HInv preIdx preNid { h with new_ids := sdel i h.new_ids } (mdel i curIdx) curNid := by
  obtain ⟨holdi, hremi⟩ := (hh.disj i).1 hnew
  refine ⟨hh.oldSorted, hh.remSorted, natsorted_sdel _ hh.newSorted, ?_, hh.nextId, hh.nidLe,
    ?_, ?_, ?_, ?_⟩
  · intro j
    exact ⟨fun hmem => (hh.disj j).1 ((sdel_sublist i h.new_ids).mem hmem), (hh.disj j).2⟩
  · intro j x hx
    obtain ⟨h1, h2, h3⟩ := hh.oldVal j x hx
    have hji : j ≠ i := by
      intro heq
      rw [heq, holdi] at hx
      exact Option.noConfusion hx
    exact ⟨h1, by rw [mfind_mdel_of_ne hji]; exact h2, h3⟩
  · intro j hj
    have hji : j ≠ i := by
      intro heq
      exact sdel_not_mem i h.new_ids (heq ▸ hj)
    obtain ⟨h1, h2, h3⟩ := hh.newVal j ((sdel_sublist i h.new_ids).mem hj)
    exact ⟨h1, h2, by rw [mfind_mdel_of_ne hji]; exact h3⟩
  · intro j x hx
    obtain ⟨h1, h2, h3⟩ := hh.remVal j x hx
    have hji : j ≠ i := by
      intro heq
      rw [heq, hremi] at hx
      exact Option.noConfusion hx
    exact ⟨h1, by rw [mfind_mdel_of_ne hji]; exact h2, h3⟩
  · intro j hnew2 hold2 hrem2
    by_cases hji : j = i
    · subst hji
      rw [mfind_mdel_self]
      have := (hh.newVal j hnew).1
      rw [hpre.find_big this]
    · rw [mfind_mdel_of_ne hji]
      have : j ∉ h.new_ids := fun hmem => hnew2 ((mem_sdel_of_ne hji).mpr hmem)
      exact hh.untouched j this hold2 hrem2

/-- Removing an object with a recorded pre-image: the pre-image moves from
`old_values` to `removed_values`, keeping the head undo state adequate. -/
theorem HInv_del_old {α : Type} {preIdx : List (Nat × α)} {preNid : Nat}
    {h : undo_state α} {curIdx : List (Nat × α)} {curNid : Nat} {i : Nat} {cur x : α}
    (hh : HInv preIdx preNid h curIdx curNid)
    (hfind : mfind curIdx i = some cur)
    (hnew : i ∉ h.new_ids) (hold : mfind h.old_values i = some x) :
    HInv preIdx preNid
      { h with old_values := mdel i h.old_values,
               removed_values := mput (i, x) h.removed_values }
      (mdel i curIdx) curNid := by
  have hrem : mfind h.removed_values i = none := by
    rcases (hh.disj i).2 with hd | hd
    · rw [hold] at hd
      exact Option.noConfusion hd
    · exact hd
  obtain ⟨hprei, hcuri, hlti⟩ := hh.oldVal i x hold
  refine ⟨ksorted_mdel _ hh.oldSorted, ksorted_mput _ hh.remSorted, hh.newSorted, ?_,
    hh.nextId, hh.nidLe, ?_, ?_, ?_, ?_⟩
  · intro j
    by_cases hji : j = i
    · subst hji
      exact ⟨fun hmem => absurd hmem hnew, Or.inl (mfind_mdel_self _ _)⟩
    · rw [mfind_mdel_of_ne hji, mfind_mput_of_ne hji]
      exact hh.disj j
  · intro j y hy
    have hji : j ≠ i := by
      intro heq
      rw [heq, mfind_mdel_self] at hy
      exact Option.noConfusion hy
    rw [mfind_mdel_of_ne hji] at hy
    obtain ⟨h1, h2, h3⟩ := hh.oldVal j y hy
    exact ⟨h1, by rw [mfind_mdel_of_ne hji]; exact h2, h3⟩
  · intro j hj
    have hji : j ≠ i := fun heq => hnew (heq ▸ hj)
    obtain ⟨h1, h2, h3⟩ := hh.newVal j hj
    exact ⟨h1, h2, by rw [mfind_mdel_of_ne hji]; exact h3⟩
  · intro j y hy
    by_cases hji : j = i
    · subst hji
      rw [mfind_mput_self2 j x hrem] at hy
      cases hy
      exact ⟨hprei, mfind_mdel_self _ _, hlti⟩
    · rw [mfind_mput_of_ne hji] at hy
      obtain ⟨h1, h2, h3⟩ := hh.remVal j y hy
      exact ⟨h1, by rw [mfind_mdel_of_ne hji]; exact h2, h3⟩
  · intro j hnew2 hold2 hrem2
    have hji : j ≠ i := by
      intro heq
      subst heq
      rw [mfind_mput_self2 j x hrem] at hrem2
      exact Option.noConfusion hrem2
    rw [mfind_mdel_of_ne hji] at hold2
    rw [mfind_mput_of_ne hji] at hrem2
    rw [mfind_mdel_of_ne hji]
    exact hh.untouched j hnew2 hold2 hrem2

/-- Removing an untouched object: its value enters `removed_values`,
keeping the head undo state adequate. -/
theorem HInv_del_nop {α : Type} {preIdx : List (Nat × α)} {preNid : Nat}
    {h : undo_state α} {curIdx : List (Nat × α)} {curNid : Nat} {i : Nat} {cur : α}
    (hh : HInv preIdx preNid h curIdx curNid)
    (hpre : SnapOk preIdx preNid)
    (hfind : mfind curIdx i = some cur)
    (hnew : i ∉ h.new_ids) (hold : mfind h.old_values i = none)
    (hrem : mfind h.removed_values i = none) :
    HInv preIdx preNid { h with removed_values := mput (i, cur) h.removed_values }
      (mdel i curIdx) curNid := by
  have hprei : mfind preIdx i = some cur := by
    rw [← hh.untouched i hnew hold hrem]
    exact hfind
  refine ⟨hh.oldSorted, ksorted_mput _ hh.remSorted, hh.newSorted, ?_, hh.nextId, hh.nidLe,
    ?_, ?_, ?_, ?_⟩
  · intro j
    by_cases hji : j = i
    · subst hji
      exact ⟨fun hmem => absurd hmem hnew, Or.inl hold⟩
    · rw [mfind_mput_of_ne hji]
      exact hh.disj j
  · intro j y hy
    have hji : j ≠ i := by
      intro heq
      rw [heq, hold] at hy
      exact Option.noConfusion hy
    obtain ⟨h1, h2, h3⟩ := hh.oldVal j y hy
    exact ⟨h1, by rw [mfind_mdel_of_ne hji]; exact h2, h3⟩
  · intro j hj
    have hji : j ≠ i := fun heq => hnew (heq ▸ hj)
    obtain ⟨h1, h2, h3⟩ := hh.newVal j hj
    exact ⟨h1, h2, by rw [mfind_mdel_of_ne hji]; exact h3⟩
  · intro j y hy
    by_cases hji : j = i
    · subst hji
      rw [mfind_mput_self2 j cur hrem] at hy
      cases hy
      exact ⟨hprei, mfind_mdel_self _ _, hpre.find_lt hprei⟩
    · rw [mfind_mput_of_ne hji] at hy
      obtain ⟨h1, h2, h3⟩ := hh.remVal j y hy
      exact ⟨h1, by rw [mfind_mdel_of_ne hji]; exact h2, h3⟩
  · intro j hnew2 hold2 hrem2
    have hji : j ≠ i := by
      intro heq
      subst heq
      rw [mfind_mput_self2 j cur hrem] at hrem2
      exact Option.noConfusion hrem2
    rw [mfind_mput_of_ne hji] at hrem2
    rw [mfind_mdel_of_ne hji]
    exact hh.untouched j hnew2 hold2 hrem2

/-- A successful `remove` preserves `HInv` on the head undo state. -/
theorem remove_ok_inv {α : Type} {g g1 : generic_index α} {i : Nat}
    (hstep : remove g i = (g1, Except.ok ()))
    {preIdx : List (Nat × α)} {preNid : Nat} {h : undo_state α} {rest : List (undo_state α)}
    (hstack : g.stack = h :: rest)
    (hpre : SnapOk preIdx preNid)
    (hcur : SnapOk g.indices g.next_id)
    (hh : HInv preIdx preNid h g.indices g.next_id) :
    ∃ h1, g1.stack = h1 :: rest ∧ SnapOk g1.indices g1.next_id ∧
      HInv preIdx preNid h1 g1.indices g1.next_id ∧
      g1.revision = g.revision ∧ g1.next_id = g.next_id ∧
      h1.revision = h.revision := by
  obtain ⟨cur, hfind, hidx, hnid, hrev, hstk⟩ := remove_ok_spec hstep
  have hsnap : SnapOk g1.indices g1.next_id := by
    refine ⟨?_, ?_⟩
    · rw [hidx]
      exact ksorted_mdel _ hcur.sorted
    · intro y hy
      rw [hidx] at hy
      rw [hnid]
      exact hcur.bound y (mem_mdel hy)
  by_cases hc1 : i ∈ h.new_ids
  · refine ⟨{ h with new_ids := sdel i h.new_ids }, ?_, hsnap, ?_, hrev, hnid, rfl⟩
    · rw [hstk]
      simp [on_remove, hstack, hc1]
    · rw [hidx, hnid]
      exact HInv_del_new hh hpre hfind hc1
  · cases hc2 : mfind h.old_values i with
    | some x =>
      refine ⟨{ h with old_values := mdel i h.old_values, removed_values := mput (i, x) h.removed_values }, ?_, hsnap, ?_, hrev, hnid, rfl⟩
      · rw [hstk]
        simp [on_remove, hstack, hc1, hc2]
      · rw [hidx, hnid]
        exact HInv_del_old hh hfind hc1 hc2
    | none =>
      have hc3 : mfind h.removed_values i = none := by
        cases hr : mfind h.removed_values i with
        | none => rfl
        | some y =>
          have := (hh.remVal i y hr).2.1
          rw [hfind] at this
          exact Option.noConfusion this
      refine ⟨{ h with removed_values := mput (i, cur) h.removed_values }, ?_, hsnap, ?_, hrev, hnid, rfl⟩
      · rw [hstk]
        simp [on_remove, hstack, hc1, hc2, hc3]
      · rw [hidx, hnid]
        exact HInv_del_nop hh hpre hfind hc1 hc2 hc3

/-! ### Characterizing a successful `undo` -/

theorem uniqueClash_nil {α : Type} (a b : α) : uniqueClash [] a b = false := rfl

theorem modClash_nil {α : Type} (l : List (Nat × α)) (i : Nat) (w : α) :
    modClash [] l i w = false := by
  simp [modClash, uniqueClash]

theorem insClash_nil {α : Type} (l : List (Nat × α)) (v : Nat × α) :
    insClash [] l v = (mfind l v.1).isSome := by
  simp [insClash, uniqueClash]

theorem restoreOlds_ok_spec {α : Type} {ks : List (α → Nat)} {l idx out : List (Nat × α)}
    (hok : restoreOlds ks l idx = Except.ok out)
    (hls : KeysSorted l) (hidx : KeysSorted idx) :
    KeysSorted out ∧
    (∀ j x, mfind l j = some x → mfind out j = some x) ∧
    (∀ j, mfind l j = none → mfind out j = mfind idx j) ∧
    (∀ j x, mfind l j = some x → (mfind idx j).isSome) := by
  induction l generalizing idx with
  | nil =>
    rw [restoreOlds] at hok
    cases hok
    exact ⟨hidx, fun j x hx => by simp [mfind] at hx,
      fun j _ => rfl, fun j x hx => by simp [mfind] at hx⟩
  | cons y rest ih =>
    rw [restoreOlds] at hok
    by_cases hp : (mfind idx y.1).isSome = true
    · rw [if_pos hp] at hok
      by_cases hcl : modClash ks idx y.1 y.2 = true
      · rw [if_pos hcl] at hok
        exact Except.noConfusion hok
      · rw [if_neg hcl] at hok
        have hrests : KeysSorted rest := (List.pairwise_cons.mp hls).2
        have htail : mfind rest y.1 = none := mfind_tail_none hls
        obtain ⟨H0, H1, H2, H3⟩ := ih hok hrests (ksorted_mset _ _ hidx)
        refine ⟨H0, ?_, ?_, ?_⟩
        · intro j x hx
          by_cases hjy : j = y.1
          · subst hjy
            simp only [mfind, if_pos rfl] at hx
            cases hx
            rw [H2 _ htail]
            exact mfind_mset_self hp
          · simp only [mfind, if_neg hjy] at hx
            exact H1 j x hx
        · intro j hj
          by_cases hjy : j = y.1
          · subst hjy
            simp only [mfind, if_pos rfl] at hj
            exact Option.noConfusion hj
          · simp only [mfind, if_neg hjy] at hj
            rw [H2 j hj]
            exact mfind_mset_of_ne hjy
        · intro j x hx
          by_cases hjy : j = y.1
          · subst hjy
            exact hp
          · simp only [mfind, if_neg hjy] at hx
            have := H3 j x hx
            rw [mfind_mset_isSome] at this
            exact this
    · rw [if_neg hp] at hok
      exact Except.noConfusion hok

theorem eraseNews_ok_spec {α : Type} {s : List Nat} {idx out : List (Nat × α)}
    (hok : eraseNews s idx = Except.ok out)
    (hs : NatSorted s) (hidx : KeysSorted idx) :
    KeysSorted out ∧
    (∀ j, j ∈ s → mfind out j = none) ∧
    (∀ j, j ∉ s → mfind out j = mfind idx j) ∧
    (∀ j, j ∈ s → (mfind idx j).isSome) := by
  induction s generalizing idx with
  | nil =>
    rw [eraseNews] at hok
    cases hok
    exact ⟨hidx, fun j hj => absurd hj (List.not_mem_nil j),
      fun j _ => rfl, fun j hj => absurd hj (List.not_mem_nil j)⟩
  | cons i rest ih =>
    rw [eraseNews] at hok
    by_cases hp : (mfind idx i).isSome = true
    · rw [if_pos hp] at hok
      have hrests : NatSorted rest := (List.pairwise_cons.mp hs).2
      have htail : i ∉ rest := natsorted_head_not_mem_tail hs
      obtain ⟨H0, H1, H2, H3⟩ := ih hok hrests (ksorted_mdel _ hidx)
      refine ⟨H0, ?_, ?_, ?_⟩
      · intro j hj
        rcases List.mem_cons.mp hj with hj1 | hj1
        · subst hj1
          rw [H2 j htail]
          exact mfind_mdel_self _ _
        · exact H1 j hj1
      · intro j hj
        have hji : j ≠ i := fun heq => hj (heq ▸ List.mem_cons_self _ _)
        have hjr : j ∉ rest := fun hmem => hj (List.mem_cons_of_mem _ hmem)
        rw [H2 j hjr]
        exact mfind_mdel_of_ne hji
      · intro j hj
        rcases List.mem_cons.mp hj with hj1 | hj1
        · subst hj1
          exact hp
        · have hji : j ≠ i := fun heq => htail (heq ▸ hj1)
          have := H3 j hj1
          rw [mfind_mdel_of_ne hji] at this
          exact this
    · rw [if_neg hp] at hok
      exact Except.noConfusion hok

theorem reinsertRemoved_ok_spec {α : Type} {ks : List (α → Nat)}
    {l idx out : List (Nat × α)}
    (hok : reinsertRemoved ks l idx = Except.ok out)
    (hls : KeysSorted l) (hidx : KeysSorted idx) :
    KeysSorted out ∧
    (∀ j x, mfind l j = some x → mfind out j = some x ∧ mfind idx j = none) ∧
    (∀ j, mfind l j = none → mfind out j = mfind idx j) := by
  induction l generalizing idx with
  | nil =>
    rw [reinsertRemoved] at hok
    cases hok
    exact ⟨hidx, fun j x hx => by simp [mfind] at hx, fun j _ => rfl⟩
  | cons y rest ih =>
    rw [reinsertRemoved] at hok
    by_cases hcl : insClash ks idx y = true
    · rw [if_pos hcl] at hok
      exact Except.noConfusion hok
    · rw [if_neg hcl] at hok
      have habs : mfind idx y.1 = none := by
        cases hfind : mfind idx y.1 with
        | none => rfl
        | some w =>
          exact absurd (by simp [insClash, hfind]) hcl
      have hrests : KeysSorted rest := (List.pairwise_cons.mp hls).2
      have htail : mfind rest y.1 = none := mfind_tail_none hls
      obtain ⟨H0, H1, H2⟩ := ih hok hrests (ksorted_mput _ hidx)
      refine ⟨H0, ?_, ?_⟩
      · intro j x hx
        by_cases hjy : j = y.1
        · subst hjy
          simp only [mfind, if_pos rfl] at hx
          cases hx
          refine ⟨?_, habs⟩
          rw [H2 _ htail]
          exact mfind_mput_self y habs
        · simp only [mfind, if_neg hjy] at hx
          obtain ⟨ha, hb⟩ := H1 j x hx
          rw [mfind_mput_of_ne hjy] at hb
          exact ⟨ha, hb⟩
      · intro j hj
        by_cases hjy : j = y.1
        · subst hjy
          simp only [mfind, if_pos rfl] at hj
          exact Option.noConfusion hj
        · simp only [mfind, if_neg hjy] at hj
          rw [H2 j hj]
          exact mfind_mput_of_ne hjy

theorem restoreOlds_none_ok {α : Type} {l idx : List (Nat × α)}
    (hls : KeysSorted l)
    (hall : ∀ j x, mfind l j = some x → (mfind idx j).isSome) :
    ∃ out, restoreOlds [] l idx = Except.ok out := by
  induction l generalizing idx with
  | nil => exact ⟨idx, rfl⟩
  | cons y rest ih =>
    have hp : (mfind idx y.1).isSome := hall y.1 y.2 (mfind_head y rest)
    obtain ⟨out, hout⟩ := ih (List.pairwise_cons.mp hls).2 (fun j x hx => by
      rw [mfind_mset_isSome]
      have hjy : j ≠ y.1 := by
        intro heq
        rw [heq, mfind_tail_none hls] at hx
        exact Option.noConfusion hx
      exact hall j x (by simp only [mfind, if_neg hjy]; exact hx))
    refine ⟨out, ?_⟩
    rw [restoreOlds, if_pos hp, modClash_nil]
    simpa using hout

theorem eraseNews_all_ok {α : Type} {s : List Nat} {idx : List (Nat × α)}
    (hs : NatSorted s)
    (hall : ∀ j, j ∈ s → (mfind idx j).isSome) :
    ∃ out, eraseNews s idx = Except.ok out := by
  induction s generalizing idx with
  | nil => exact ⟨idx, rfl⟩
  | cons i rest ih =>
    have hp : (mfind idx i).isSome := hall i (List.mem_cons_self _ _)
    obtain ⟨out, hout⟩ := ih (List.pairwise_cons.mp hs).2 (fun j hj => by
      have hji : j ≠ i := fun heq => natsorted_head_not_mem_tail hs (heq ▸ hj)
      rw [mfind_mdel_of_ne hji]
      exact hall j (List.mem_cons_of_mem _ hj))
    refine ⟨out, ?_⟩
    rw [eraseNews, if_pos hp]
    exact hout

theorem reinsertRemoved_none_ok {α : Type} {l idx : List (Nat × α)}
    (hls : KeysSorted l)
    (hall : ∀ j x, mfind l j = some x → mfind idx j = none) :
    ∃ out, reinsertRemoved [] l idx = Except.ok out := by
  induction l generalizing idx with
  | nil => exact ⟨idx, rfl⟩
  | cons y rest ih =>
    have habs : mfind idx y.1 = none := hall y.1 y.2 (mfind_head y rest)
    obtain ⟨out, hout⟩ := ih (List.pairwise_cons.mp hls).2 (fun j x hx => by
      have hjy : j ≠ y.1 := by
        intro heq
        rw [heq, mfind_tail_none hls] at hx
        exact Option.noConfusion hx
      rw [mfind_mput_of_ne hjy]
      exact hall j x (by simp only [mfind, if_neg hjy]; exact hx))
    refine ⟨out, ?_⟩
    have hcl : insClash [] idx y = false := by
      rw [insClash_nil, habs]
      rfl
    rw [reinsertRemoved, hcl]
    simpa using hout

/-- The three restoration loops of `undo`, run successfully on an adequate
head undo state, rebuild exactly the session-entry container. -/
theorem undoPhases_restore {α : Type} {ks : List (α → Nat)} {h : undo_state α}
    {idx i1 i2 i3 preIdx : List (Nat × α)} {preNid curNid : Nat}
    (hpre : SnapOk preIdx preNid) (hcur : SnapOk idx curNid)
    (hh : HInv preIdx preNid h idx curNid)
    (h1 : restoreOlds ks h.old_values idx = Except.ok i1)
    (h2 : eraseNews h.new_ids i1 = Except.ok i2)
    (h3 : reinsertRemoved ks h.removed_values i2 = Except.ok i3) :
    i3 = preIdx := by
  obtain ⟨S1, R1some, R1none, -⟩ := restoreOlds_ok_spec h1 hh.oldSorted hcur.sorted
  obtain ⟨S2, E1mem, E1not, -⟩ := eraseNews_ok_spec h2 hh.newSorted S1
  obtain ⟨S3, I1some, I1none⟩ := reinsertRemoved_ok_spec h3 hh.remSorted S2
  apply msorted_ext S3 hpre.sorted
  intro j
  cases hold : mfind h.old_values j with
  | some x =>
    have hdnew : j ∉ h.new_ids := by
      intro hmem
      rw [((hh.disj j).1 hmem).1] at hold
      exact Option.noConfusion hold
    have hdrem : mfind h.removed_values j = none := by
      rcases (hh.disj j).2 with hd | hd
      · rw [hold] at hd
        exact Option.noConfusion hd
      · exact hd
    rw [I1none j hdrem, E1not j hdnew, R1some j x hold]
    exact ((hh.oldVal j x hold).1).symm
  | none =>
    by_cases hnew : j ∈ h.new_ids
    · have hdrem := ((hh.disj j).1 hnew).2
      rw [I1none j hdrem, E1mem j hnew]
      rw [hpre.find_big (hh.newVal j hnew).1]
    · cases hrem : mfind h.removed_values j with
      | some x =>
        rw [(I1some j x hrem).1]
        exact ((hh.remVal j x hrem).1).symm
      | none =>
        rw [I1none j hrem, E1not j hnew, R1none j hold]
        exact hh.untouched j hnew hold hrem

/-- Under the session invariant, whenever `undo` returns without an error it
returns exactly the session-entry state. -/
theorem undo_ok_spec {α : Type} {ks : List (α → Nat)} {g g1 : generic_index α}
    {h : undo_state α} {rest : List (undo_state α)}
    {preIdx : List (Nat × α)} {preNid : Nat}
    (hstack : g.stack = h :: rest)
    (hpre : SnapOk preIdx preNid)
    (hcur : SnapOk g.indices g.next_id)
    (hh : HInv preIdx preNid h g.indices g.next_id)
    (hok : undo ks g = Except.ok g1) :
    g1 = { stack := rest, revision := g.revision - 1,
           next_id := preNid, indices := preIdx } := by
  rw [undo] at hok
  simp only [hstack] at hok
  cases h1 : restoreOlds ks h.old_values g.indices with
  | error e =>
    simp only [h1] at hok
    exact Except.noConfusion hok
  | ok i1 =>
    simp only [h1] at hok
    cases h2 : eraseNews h.new_ids i1 with
    | error e =>
      simp only [h2] at hok
      exact Except.noConfusion hok
    | ok i2 =>
      simp only [h2] at hok
      cases h3 : reinsertRemoved ks h.removed_values i2 with
      | error e =>
        simp only [h3] at hok
        exact Except.noConfusion hok
      | ok i3 =>
        simp only [h3] at hok
        have hi3 : i3 = preIdx := undoPhases_restore hpre hcur hh h1 h2 h3
        have := Except.ok.inj hok
        rw [← this, hi3, hh.nextId]

/-- With no unique secondary index, `undo` on an adequate head state
succeeds and returns exactly the session-entry state. -/
theorem undo_none_ok {α : Type} {g : generic_index α}
    {h : undo_state α} {rest : List (undo_state α)}
    {preIdx : List (Nat × α)} {preNid : Nat}
    (hstack : g.stack = h :: rest)
    (hpre : SnapOk preIdx preNid)
    (hcur : SnapOk g.indices g.next_id)
    (hh : HInv preIdx preNid h g.indices g.next_id) :
    undo [] g = Except.ok
      ({ stack := rest, revision := g.revision - 1, next_id := preNid, indices := preIdx } :
        generic_index α) := by
  obtain ⟨i1, h1⟩ := restoreOlds_none_ok hh.oldSorted
    (fun j x hx => (hh.oldVal j x hx).2.1)
  obtain ⟨S1, R1some, R1none, -⟩ := restoreOlds_ok_spec h1 hh.oldSorted hcur.sorted
  obtain ⟨i2, h2⟩ := eraseNews_all_ok hh.newSorted (fun j hj => by
    rw [R1none j ((hh.disj j).1 hj).1]
    exact (hh.newVal j hj).2.2)
  obtain ⟨S2, E1mem, E1not, -⟩ := eraseNews_ok_spec h2 hh.newSorted S1
  obtain ⟨i3, h3⟩ := reinsertRemoved_none_ok hh.remSorted (fun j x hx => by
    have hnew : j ∉ h.new_ids := by
      intro hmem
      rw [((hh.disj j).1 hmem).2] at hx
      exact Option.noConfusion hx
    have hold : mfind h.old_values j = none := by
      rcases (hh.disj j).2 with hd | hd
      · exact hd
      · rw [hd] at hx
        exact Option.noConfusion hx
    rw [E1not j hnew, R1none j hold]
    exact (hh.remVal j x hx).2.1)
  have hi3 : i3 = preIdx := undoPhases_restore hpre hcur hh h1 h2 h3
  rw [undo]
  simp only [hstack, h1, h2, h3]
  rw [hi3, hh.nextId]

/-! ### Characterizing the `squash` merge loops -/

theorem mergeOlds_fields {α : Type} (bOld : List (Nat × α)) (a : undo_state α) :
    (mergeOlds bOld a).removed_values = a.removed_values ∧
    (mergeOlds bOld a).new_ids = a.new_ids ∧
    (mergeOlds bOld a).old_next_id = a.old_next_id ∧
    (mergeOlds bOld a).revision = a.revision := by
  induction bOld generalizing a with
  | nil => exact ⟨rfl, rfl, rfl, rfl⟩
  | cons x rest ih =>
    rw [mergeOlds]
    by_cases h1 : a.new_ids.contains x.1 = true
    · rw [if_pos h1]
      exact ih a
    · rw [if_neg h1]
      by_cases h2 : (mfind a.old_values x.1).isSome = true
      · rw [if_pos h2]
        exact ih a
      · rw [if_neg h2]
        exact ih { a with old_values := mput x a.old_values }

theorem mergeOlds_sorted {α : Type} {bOld : List (Nat × α)} {a : undo_state α}
    (hs : KeysSorted a.old_values) : KeysSorted (mergeOlds bOld a).old_values := by
  induction bOld generalizing a with
  | nil => exact hs
  | cons x rest ih =>
    rw [mergeOlds]
    by_cases h1 : a.new_ids.contains x.1 = true
    · rw [if_pos h1]
      exact ih hs
    · rw [if_neg h1]
      by_cases h2 : (mfind a.old_values x.1).isSome = true
      · rw [if_pos h2]
        exact ih hs
      · rw [if_neg h2]
        exact ih (ksorted_mput x hs)

theorem mergeOlds_notkey {α : Type} {bOld : List (Nat × α)} {a : undo_state α} {j : Nat}
    (hj : mfind bOld j = none) :
    mfind (mergeOlds bOld a).old_values j = mfind a.old_values j := by
  induction bOld generalizing a with
  | nil => rfl
  | cons y rest ih =>
    simp only [mfind] at hj
    by_cases hjy : j = y.1
    · simp [hjy] at hj
    · rw [if_neg hjy] at hj
      rw [mergeOlds]
      by_cases h1 : a.new_ids.contains y.1 = true
      · rw [if_pos h1]
        exact ih hj
      · rw [if_neg h1]
        by_cases h2 : (mfind a.old_values y.1).isSome = true
        · rw [if_pos h2]
          exact ih hj
        · rw [if_neg h2]
          rw [ih hj]
          exact mfind_mput_of_ne hjy

theorem mergeOlds_key {α : Type} {bOld : List (Nat × α)} {a : undo_state α} {j : Nat} {x : α}
    (hsb : KeysSorted bOld) (hj : mfind bOld j = some x) :
    (j ∈ a.new_ids → mfind (mergeOlds bOld a).old_values j = mfind a.old_values j) ∧
    ((mfind a.old_values j).isSome →
      mfind (mergeOlds bOld a).old_values j = mfind a.old_values j) ∧
    (j ∉ a.new_ids → mfind a.old_values j = none →
      mfind (mergeOlds bOld a).old_values j = some x) := by
  induction bOld generalizing a with
  | nil => simp [mfind] at hj
  | cons y rest ih =>
    by_cases hjy : j = y.1
    · subst hjy
      simp only [mfind, if_pos rfl] at hj
      cases hj
      have htail : mfind rest y.1 = none := mfind_tail_none hsb
      rw [mergeOlds]
      by_cases h1 : a.new_ids.contains y.1 = true
      · rw [if_pos h1]
        rw [mergeOlds_notkey htail]
        exact ⟨fun _ => rfl, fun _ => rfl,
          fun hn _ => absurd (contains_iff.mp h1) hn⟩
      · rw [if_neg h1]
        by_cases h2 : (mfind a.old_values y.1).isSome = true
        · rw [if_pos h2]
          rw [mergeOlds_notkey htail]
          refine ⟨fun _ => rfl, fun _ => rfl, fun _ hnone => ?_⟩
          rw [hnone] at h2
          exact Bool.noConfusion h2
        · rw [if_neg h2]
          rw [mergeOlds_notkey htail]
          refine ⟨fun hmem => absurd (contains_iff.mpr hmem) h1, fun hs => absurd hs h2,
            fun _ hnone => ?_⟩
          exact mfind_mput_self y hnone
    · simp only [mfind, if_neg hjy] at hj
      rw [mergeOlds]
      by_cases h1 : a.new_ids.contains y.1 = true
      · rw [if_pos h1]
        exact ih (List.pairwise_cons.mp hsb).2 hj
      · rw [if_neg h1]
        by_cases h2 : (mfind a.old_values y.1).isSome = true
        · rw [if_pos h2]
          exact ih (List.pairwise_cons.mp hsb).2 hj
        · rw [if_neg h2]
          obtain ⟨K1, K2, K3⟩ := ih (List.pairwise_cons.mp hsb).2 hj
            (a := { a with old_values := mput y a.old_values })
          have heq : mfind (mput y a.old_values) j = mfind a.old_values j :=
            mfind_mput_of_ne hjy
          refine ⟨fun hmem => ?_, fun hs => ?_, fun hn hnone => ?_⟩
          · rw [K1 hmem, heq]
          · rw [K2 (by rw [heq]; exact hs), heq]
          · rw [K3 hn (by rw [heq]; exact hnone)]

theorem mergeNews_fields {α : Type} (bNew : List Nat) (a : undo_state α) :
    (mergeNews bNew a).old_values = a.old_values ∧
    (mergeNews bNew a).removed_values = a.removed_values ∧
    (mergeNews bNew a).old_next_id = a.old_next_id ∧
    (mergeNews bNew a).revision = a.revision := by
  induction bNew generalizing a with
  | nil => exact ⟨rfl, rfl, rfl, rfl⟩
  | cons i rest ih =>
    rw [mergeNews]
    exact ih { a with new_ids := sput i a.new_ids }

theorem mergeNews_sorted {α : Type} {bNew : List Nat} {a : undo_state α}
    (hs : NatSorted a.new_ids) : NatSorted (mergeNews bNew a).new_ids := by
  induction bNew generalizing a with
  | nil => exact hs
  | cons i rest ih =>
    rw [mergeNews]
    exact ih (natsorted_sput i hs)

theorem mergeNews_new {α : Type} (bNew : List Nat) (a : undo_state α) (j : Nat) :
    (j ∈ (mergeNews bNew a).new_ids ↔ j ∈ bNew ∨ j ∈ a.new_ids) := by
  induction bNew generalizing a with
  | nil => simp [mergeNews]
  | cons i rest ih =>
    rw [mergeNews]
    rw [ih { a with new_ids := sput i a.new_ids }]
    constructor
    · intro hmem
      rcases hmem with hm | hm
      · exact Or.inl (List.mem_cons_of_mem _ hm)
      · rcases mem_sput.mp hm with hm1 | hm1
        · exact Or.inl (hm1 ▸ List.mem_cons_self _ _)
        · exact Or.inr hm1
    · intro hmem
      rcases hmem with hm | hm
      · rcases List.mem_cons.mp hm with hm1 | hm1
        · exact Or.inr (mem_sput.mpr (Or.inl hm1))
        · exact Or.inl hm1
      · exact Or.inr (mem_sput.mpr (Or.inr hm))

theorem mergeRemoved_fields {α : Type} (bRem : List (Nat × α)) (a : undo_state α) :
    (mergeRemoved bRem a).old_next_id = a.old_next_id ∧
    (mergeRemoved bRem a).revision = a.revision := by
  induction bRem generalizing a with
  | nil => exact ⟨rfl, rfl⟩
  | cons y rest ih =>
    rw [mergeRemoved]
    by_cases h1 : a.new_ids.contains y.1 = true
    · rw [if_pos h1]
      exact ih _
    · rw [if_neg h1]
      cases h2 : mfind a.old_values y.1 with
      | some z => exact ih _
      | none => exact ih _

theorem mergeRemoved_sorted {α : Type} (bRem : List (Nat × α)) {a : undo_state α}
    (hold : KeysSorted a.old_values) (hrem : KeysSorted a.removed_values)
    (hnew : NatSorted a.new_ids) :
    KeysSorted (mergeRemoved bRem a).old_values ∧
    KeysSorted (mergeRemoved bRem a).removed_values ∧
    NatSorted (mergeRemoved bRem a).new_ids := by
  induction bRem generalizing a with
  | nil => exact ⟨hold, hrem, hnew⟩
  | cons y rest ih =>
    rw [mergeRemoved]
    by_cases h1 : a.new_ids.contains y.1 = true
    · rw [if_pos h1]
      exact ih hold hrem (natsorted_sdel _ hnew)
    · rw [if_neg h1]
      cases h2 : mfind a.old_values y.1 with
      | some z => exact ih (ksorted_mdel _ hold) (ksorted_mput _ hrem) hnew
      | none => exact ih hold (ksorted_mput _ hrem) hnew

theorem mergeRemoved_notkey {α : Type} {bRem : List (Nat × α)} {a : undo_state α} {j : Nat}
    (hj : mfind bRem j = none) :
    ((j ∈ (mergeRemoved bRem a).new_ids) ↔ j ∈ a.new_ids) ∧
    mfind (mergeRemoved bRem a).old_values j = mfind a.old_values j ∧
    mfind (mergeRemoved bRem a).removed_values j = mfind a.removed_values j := by
  induction bRem generalizing a with
  | nil => exact ⟨Iff.rfl, rfl, rfl⟩
  | cons y rest ih =>
    simp only [mfind] at hj
    by_cases hjy : j = y.1
    · simp [hjy] at hj
    · rw [if_neg hjy] at hj
      rw [mergeRemoved]
      by_cases h1 : a.new_ids.contains y.1 = true
      · rw [if_pos h1]
        obtain ⟨K1, K2, K3⟩ := ih (a := { a with new_ids := sdel y.1 a.new_ids }) hj
        exact ⟨K1.trans (mem_sdel_of_ne hjy), K2, K3⟩
      · rw [if_neg h1]
        cases h2 : mfind a.old_values y.1 with
        | some z =>
          obtain ⟨K1, K2, K3⟩ := ih (a := { a with
            removed_values := mput (y.1, z) a.removed_values,
            old_values := mdel y.1 a.old_values }) hj
          refine ⟨K1, ?_, ?_⟩
          · rw [K2]
            exact mfind_mdel_of_ne hjy
          · rw [K3]
            exact mfind_mput_of_ne hjy
        | none =>
          obtain ⟨K1, K2, K3⟩ := ih
            (a := { a with removed_values := mput y a.removed_values }) hj
          refine ⟨K1, K2, ?_⟩
          rw [K3]
          exact mfind_mput_of_ne hjy

theorem mergeRemoved_key_new {α : Type} {bRem : List (Nat × α)} {a : undo_state α}
    {j : Nat} {x : α}
    (hsr : KeysSorted bRem) (hj : mfind bRem j = some x) (hnew : j ∈ a.new_ids) :
    (j ∉ (mergeRemoved bRem a).new_ids) ∧
    mfind (mergeRemoved bRem a).old_values j = mfind a.old_values j ∧
    mfind (mergeRemoved bRem a).removed_values j = mfind a.removed_values j := by
  induction bRem generalizing a with
  | nil => simp [mfind] at hj
  | cons y rest ih =>
    by_cases hjy : j = y.1
    · subst hjy
      have htail : mfind rest y.1 = none := mfind_tail_none hsr
      rw [mergeRemoved]
      rw [if_pos (contains_iff.mpr hnew)]
      obtain ⟨K1, K2, K3⟩ :=
        mergeRemoved_notkey (a := { a with new_ids := sdel y.1 a.new_ids }) htail
      exact ⟨fun hmem => sdel_not_mem _ _ (K1.mp hmem), K2, K3⟩
    · simp only [mfind, if_neg hjy] at hj
      rw [mergeRemoved]
      by_cases h1 : a.new_ids.contains y.1 = true
      · rw [if_pos h1]
        obtain ⟨K1, K2, K3⟩ := ih (a := { a with new_ids := sdel y.1 a.new_ids })
          (List.pairwise_cons.mp hsr).2 hj ((mem_sdel_of_ne hjy).mpr hnew)
        exact ⟨K1, K2, K3⟩
      · rw [if_neg h1]
        cases h2 : mfind a.old_values y.1 with
        | some z =>
          obtain ⟨K1, K2, K3⟩ := ih (a := { a with
            removed_values := mput (y.1, z) a.removed_values,
            old_values := mdel y.1 a.old_values })
            (List.pairwise_cons.mp hsr).2 hj hnew
          refine ⟨K1, ?_, ?_⟩
          · rw [K2]
            exact mfind_mdel_of_ne hjy
          · rw [K3]
            exact mfind_mput_of_ne hjy
        | none =>
          obtain ⟨K1, K2, K3⟩ := ih
            (a := { a with removed_values := mput y a.removed_values })
            (List.pairwise_cons.mp hsr).2 hj hnew
          refine ⟨K1, K2, ?_⟩
          rw [K3]
          exact mfind_mput_of_ne hjy

theorem mergeRemoved_key_old {α : Type} {bRem : List (Nat × α)} {a : undo_state α}
    {j : Nat} {x y0 : α}
    (hsr : KeysSorted bRem) (hj : mfind bRem j = some x) (hnew : j ∉ a.new_ids)
    (hold : mfind a.old_values j = some y0)
    (hrem : mfind a.removed_values j = none) :
    (j ∉ (mergeRemoved bRem a).new_ids) ∧
    mfind (mergeRemoved bRem a).old_values j = none ∧
    mfind (mergeRemoved bRem a).removed_values j = some y0 := by
  induction bRem generalizing a with
  | nil => simp [mfind] at hj
  | cons y rest ih =>
    by_cases hjy : j = y.1
    · subst hjy
      have htail : mfind rest y.1 = none := mfind_tail_none hsr
      rw [mergeRemoved]
      rw [if_neg (fun hc => hnew (contains_iff.mp hc))]
      rw [hold]
      obtain ⟨K1, K2, K3⟩ := mergeRemoved_notkey (a := { a with
        removed_values := mput (y.1, y0) a.removed_values,
        old_values := mdel y.1 a.old_values }) htail
      refine ⟨fun hmem => hnew (K1.mp hmem), ?_, ?_⟩
      · rw [K2]
        exact mfind_mdel_self _ _
      · rw [K3]
        exact mfind_mput_self2 y.1 y0 hrem
    · simp only [mfind, if_neg hjy] at hj
      rw [mergeRemoved]
      by_cases h1 : a.new_ids.contains y.1 = true
      · rw [if_pos h1]
        exact ih (a := { a with new_ids := sdel y.1 a.new_ids })
          (List.pairwise_cons.mp hsr).2 hj
          (fun hmem => hnew ((sdel_sublist y.1 a.new_ids).mem hmem)) hold hrem
      · rw [if_neg h1]
        cases h2 : mfind a.old_values y.1 with
        | some z =>
          exact ih (a := { a with
            removed_values := mput (y.1, z) a.removed_values,
            old_values := mdel y.1 a.old_values })
            (List.pairwise_cons.mp hsr).2 hj hnew
            (by show mfind (mdel y.1 a.old_values) j = some y0; rw [mfind_mdel_of_ne hjy]; exact hold)
            (by show mfind (mput (y.1, z) a.removed_values) j = none; rw [mfind_mput_of_ne (x := (y.1, z)) hjy]; exact hrem)
        | none =>
          exact ih (a := { a with removed_values := mput y a.removed_values })
            (List.pairwise_cons.mp hsr).2 hj hnew hold
            (by show mfind (mput y a.removed_values) j = none; rw [mfind_mput_of_ne hjy]; exact hrem)

theorem mergeRemoved_key_nop {α : Type} {bRem : List (Nat × α)} {a : undo_state α}
    {j : Nat} {x : α}
    (hsr : KeysSorted bRem) (hj : mfind bRem j = some x) (hnew : j ∉ a.new_ids)
    (hold : mfind a.old_values j = none)
    (hrem : mfind a.removed_values j = none) :
    (j ∉ (mergeRemoved bRem a).new_ids) ∧
    mfind (mergeRemoved bRem a).old_values j = none ∧
    mfind (mergeRemoved bRem a).removed_values j = some x := by
  induction bRem generalizing a with
  | nil => simp [mfind] at hj
  | cons y rest ih =>
    by_cases hjy : j = y.1
    · subst hjy
      simp only [mfind, if_pos rfl] at hj
      cases hj
      have htail : mfind rest y.1 = none := mfind_tail_none hsr
      rw [mergeRemoved]
      rw [if_neg (fun hc => hnew (contains_iff.mp hc))]
      rw [hold]
      obtain ⟨K1, K2, K3⟩ := mergeRemoved_notkey
        (a := { a with removed_values := mput y a.removed_values }) htail
      refine ⟨fun hmem => hnew (K1.mp hmem), by rw [K2]; exact hold, ?_⟩
      rw [K3]
      exact mfind_mput_self y hrem
    · simp only [mfind, if_neg hjy] at hj
      rw [mergeRemoved]
      by_cases h1 : a.new_ids.contains y.1 = true
      · rw [if_pos h1]
        exact ih (a := { a with new_ids := sdel y.1 a.new_ids })
          (List.pairwise_cons.mp hsr).2 hj
          (fun hmem => hnew ((sdel_sublist y.1 a.new_ids).mem hmem)) hold hrem
      · rw [if_neg h1]
        cases h2 : mfind a.old_values y.1 with
        | some z =>
          exact ih (a := { a with
            removed_values := mput (y.1, z) a.removed_values,
            old_values := mdel y.1 a.old_values })
            (List.pairwise_cons.mp hsr).2 hj hnew
            (by show mfind (mdel y.1 a.old_values) j = none; rw [mfind_mdel_of_ne hjy]; exact hold)
            (by show mfind (mput (y.1, z) a.removed_values) j = none; rw [mfind_mput_of_ne (x := (y.1, z)) hjy]; exact hrem)
        | none =>
          exact ih (a := { a with removed_values := mput y a.removed_values })
            (List.pairwise_cons.mp hsr).2 hj hnew hold
            (by show mfind (mput y a.removed_values) j = none; rw [mfind_mput_of_ne hjy]; exact hrem)

/-- The merge performed by `squash` composes two adequate undo states: if `A`
records the delta pre→mid and `B` records mid→cur, then merging `B` into `A`
per the 4×4 table records pre→cur.  In particular the `N/A` cells of the
table (chainbase.hpp:561 and :586) are unreachable. -/
theorem HInv_merge {α : Type} {preIdx midIdx curIdx : List (Nat × α)}
    {preNid midNid curNid : Nat} {A B : undo_state α}
    (hpre : SnapOk preIdx preNid) (hmid : SnapOk midIdx midNid)
    (hA : HInv preIdx preNid A midIdx midNid)
    (hB : HInv midIdx midNid B curIdx curNid) :
    HInv preIdx preNid
      (mergeRemoved B.removed_values (mergeNews B.new_ids (mergeOlds B.old_values A)))
      curIdx curNid := by
  have hBnewA : ∀ j ∈ B.new_ids, j ∉ A.new_ids ∧ mfind A.old_values j = none ∧
      mfind A.removed_values j = none := by
    intro j hj
    have hge := (hB.newVal j hj).1
    refine ⟨fun hmem => ?_, ?_, ?_⟩
    · have := (hA.newVal j hmem).2.1
      omega
    · cases hfind : mfind A.old_values j with
      | none => rfl
      | some x =>
        have := (hA.oldVal j x hfind).2.2
        have := hA.nidLe
        omega
    · cases hfind : mfind A.removed_values j with
      | none => rfl
      | some x =>
        have := (hA.remVal j x hfind).2.2
        have := hA.nidLe
        omega
  have hBoldArem : ∀ j x, mfind B.old_values j = some x →
      mfind A.removed_values j = none := by
    intro j x hj
    cases hfind : mfind A.removed_values j with
    | none => rfl
    | some y =>
      have h1 := (hA.remVal j y hfind).2.1
      have h2 := (hB.oldVal j x hj).1
      rw [h1] at h2
      exact Option.noConfusion h2
  have hBremArem : ∀ j x, mfind B.removed_values j = some x →
      mfind A.removed_values j = none := by
    intro j x hj
    cases hfind : mfind A.removed_values j with
    | none => rfl
    | some y =>
      have h1 := (hA.remVal j y hfind).2.1
      have h2 := (hB.remVal j x hj).1
      rw [h1] at h2
      exact Option.noConfusion h2
  have hBremBold : ∀ j x, mfind B.removed_values j = some x →
      mfind B.old_values j = none := by
    intro j x hj
    rcases (hB.disj j).2 with hd | hd
    · exact hd
    · rw [hj] at hd
      exact Option.noConfusion hd
  have hBremBnew : ∀ j x, mfind B.removed_values j = some x → j ∉ B.new_ids := by
    intro j x hj hmem
    rw [((hB.disj j).1 hmem).2] at hj
    exact Option.noConfusion hj
  obtain ⟨hA1rem, hA1new, hA1nid, hA1rev⟩ := mergeOlds_fields B.old_values A
  obtain ⟨hA2old, hA2rem, hA2nid, hA2rev⟩ :=
    mergeNews_fields B.new_ids (mergeOlds B.old_values A)
  have hA2newmem : ∀ j, j ∈ (mergeNews B.new_ids (mergeOlds B.old_values A)).new_ids ↔
      j ∈ B.new_ids ∨ j ∈ A.new_ids := by
    intro j
    rw [mergeNews_new, hA1new]
  have hA2remeq : (mergeNews B.new_ids (mergeOlds B.old_values A)).removed_values =
      A.removed_values := by
    rw [hA2rem, hA1rem]
  have hA1olds : KeysSorted (mergeOlds B.old_values A).old_values :=
    mergeOlds_sorted hA.oldSorted
  have hA2olds : KeysSorted (mergeNews B.new_ids (mergeOlds B.old_values A)).old_values := by
    rw [hA2old]
    exact hA1olds
  have hA2rems : KeysSorted
      (mergeNews B.new_ids (mergeOlds B.old_values A)).removed_values := by
    rw [hA2remeq]
    exact hA.remSorted
  have hA2news : NatSorted (mergeNews B.new_ids (mergeOlds B.old_values A)).new_ids :=
    mergeNews_sorted (by rw [hA1new]; exact hA.newSorted)
  obtain ⟨hMolds, hMrems, hMnews⟩ := mergeRemoved_sorted B.removed_values
    hA2olds hA2rems hA2news
  refine ⟨hMolds, hMrems, hMnews, ?_, ?_, hA.nidLe.trans hB.nidLe, ?_, ?_, ?_, ?_⟩
  all_goals clear hMolds hMrems hMnews
  -- disjointness of the merged state
  · intro j
    cases hBr : mfind B.removed_values j with
    | some w =>
      have hA2remj : mfind
          (mergeNews B.new_ids (mergeOlds B.old_values A)).removed_values j = none := by
        rw [hA2remeq]
        exact hBremArem j w hBr
      by_cases hA2newj : j ∈ (mergeNews B.new_ids (mergeOlds B.old_values A)).new_ids
      · obtain ⟨K1, K2, K3⟩ := mergeRemoved_key_new hB.remSorted hBr hA2newj
        refine ⟨fun hmem => absurd hmem K1, Or.inr ?_⟩
        rw [K3]
        exact hA2remj
      · cases hA2oldj : mfind
            (mergeNews B.new_ids (mergeOlds B.old_values A)).old_values j with
        | some y =>
          obtain ⟨K1, K2, K3⟩ :=
            mergeRemoved_key_old hB.remSorted hBr hA2newj hA2oldj hA2remj
          exact ⟨fun hmem => absurd hmem K1, Or.inl K2⟩
        | none =>
          obtain ⟨K1, K2, K3⟩ :=
            mergeRemoved_key_nop hB.remSorted hBr hA2newj hA2oldj hA2remj
          exact ⟨fun hmem => absurd hmem K1, Or.inl K2⟩
    | none =>
      obtain ⟨K1, K2, K3⟩ := mergeRemoved_notkey
        (a := mergeNews B.new_ids (mergeOlds B.old_values A)) hBr
      rw [hA2old] at K2
      rw [hA2remeq] at K3
      constructor
      · intro hmem
        rcases (hA2newmem j).mp (K1.mp hmem) with hj | hj
        · obtain ⟨hnA, holdA, hremA⟩ := hBnewA j hj
          have hBoldj : mfind B.old_values j = none := ((hB.disj j).1 hj).1
          refine ⟨?_, by rw [K3]; exact hremA⟩
          rw [K2, mergeOlds_notkey hBoldj]
          exact holdA
        · have holdA := ((hA.disj j).1 hj).1
          have hremA := ((hA.disj j).1 hj).2
          refine ⟨?_, by rw [K3]; exact hremA⟩
          rw [K2]
          cases hBo : mfind B.old_values j with
          | some w =>
            rw [(mergeOlds_key hB.oldSorted hBo).1 hj]
            exact holdA
          | none =>
            rw [mergeOlds_notkey hBo]
            exact holdA
      · cases hremA : mfind A.removed_values j with
        | none => exact Or.inr (by rw [K3]; exact hremA)
        | some z =>
          refine Or.inl ?_
          have holdA : mfind A.old_values j = none := by
            rcases (hA.disj j).2 with hd | hd
            · exact hd
            · rw [hremA] at hd
              exact Option.noConfusion hd
          have hBo : mfind B.old_values j = none := by
            cases hbo : mfind B.old_values j with
            | none => rfl
            | some w =>
              rw [hBoldArem j w hbo] at hremA
              exact Option.noConfusion hremA
          rw [K2, mergeOlds_notkey hBo]
          exact holdA
  -- old_next_id is the outer session entry next_id
  · rw [(mergeRemoved_fields _ _).1, hA2nid, hA1nid]
    exact hA.nextId
  -- old_values of the merged state
  · intro j x hM
    cases hBr : mfind B.removed_values j with
    | some w =>
      have hA2remj : mfind
          (mergeNews B.new_ids (mergeOlds B.old_values A)).removed_values j = none := by
        rw [hA2remeq]
        exact hBremArem j w hBr
      by_cases hA2newj : j ∈ (mergeNews B.new_ids (mergeOlds B.old_values A)).new_ids
      · obtain ⟨K1, K2, K3⟩ := mergeRemoved_key_new hB.remSorted hBr hA2newj
        rcases (hA2newmem j).mp hA2newj with hj | hj
        · exact absurd hBr (by rw [((hB.disj j).1 hj).2]; simp)
        · rw [K2, hA2old, mergeOlds_notkey (hBremBold j w hBr)] at hM
          rw [((hA.disj j).1 hj).1] at hM
          exact Option.noConfusion hM
      · cases hA2oldj : mfind
            (mergeNews B.new_ids (mergeOlds B.old_values A)).old_values j with
        | some y =>
          obtain ⟨K1, K2, K3⟩ :=
            mergeRemoved_key_old hB.remSorted hBr hA2newj hA2oldj hA2remj
          rw [K2] at hM
          exact Option.noConfusion hM
        | none =>
          obtain ⟨K1, K2, K3⟩ :=
            mergeRemoved_key_nop hB.remSorted hBr hA2newj hA2oldj hA2remj
          rw [K2] at hM
          exact Option.noConfusion hM
    | none =>
      obtain ⟨K1, K2, K3⟩ := mergeRemoved_notkey
        (a := mergeNews B.new_ids (mergeOlds B.old_values A)) hBr
      rw [K2, hA2old] at hM
      cases hBo : mfind B.old_values j with
      | some w =>
        obtain ⟨L1, L2, L3⟩ := mergeOlds_key (a := A) hB.oldSorted hBo
        by_cases hAn : j ∈ A.new_ids
        · rw [L1 hAn, ((hA.disj j).1 hAn).1] at hM
          exact Option.noConfusion hM
        · by_cases hAo : (mfind A.old_values j).isSome = true
          · rw [L2 hAo] at hM
            obtain ⟨P1, P2, P3⟩ := hA.oldVal j x hM
            exact ⟨P1, (hB.oldVal j w hBo).2.1, P3⟩
          · have hAon : mfind A.old_values j = none := by
              cases hq : mfind A.old_values j with
              | none => rfl
              | some q => exact absurd (by rw [hq]; rfl) hAo
            rw [L3 hAn hAon] at hM
            cases hM
            have hArem := hBoldArem j x hBo
            have hmidj : mfind midIdx j = mfind preIdx j :=
              hA.untouched j hAn hAon hArem
            have hBmid := (hB.oldVal j x hBo).1
            rw [hmidj] at hBmid
            exact ⟨hBmid, (hB.oldVal j x hBo).2.1, hpre.find_lt hBmid⟩
      | none =>
        rw [mergeOlds_notkey hBo] at hM
        obtain ⟨P1, P2, P3⟩ := hA.oldVal j x hM
        have hBn : j ∉ B.new_ids := by
          intro hmem
          rw [(hBnewA j hmem).2.1] at hM
          exact Option.noConfusion hM
        have hcur : mfind curIdx j = mfind midIdx j := hB.untouched j hBn hBo hBr
        rw [hcur]
        exact ⟨P1, P2, P3⟩
  -- new_ids of the merged state
  · intro j hM
    cases hBr : mfind B.removed_values j with
    | some w =>
      have hA2remj : mfind
          (mergeNews B.new_ids (mergeOlds B.old_values A)).removed_values j = none := by
        rw [hA2remeq]
        exact hBremArem j w hBr
      by_cases hA2newj : j ∈ (mergeNews B.new_ids (mergeOlds B.old_values A)).new_ids
      · exact absurd hM (mergeRemoved_key_new hB.remSorted hBr hA2newj).1
      · cases hA2oldj : mfind
            (mergeNews B.new_ids (mergeOlds B.old_values A)).old_values j with
        | some y =>
          exact absurd hM (mergeRemoved_key_old hB.remSorted hBr hA2newj hA2oldj hA2remj).1
        | none =>
          exact absurd hM (mergeRemoved_key_nop hB.remSorted hBr hA2newj hA2oldj hA2remj).1
    | none =>
      have K1 := (mergeRemoved_notkey
        (a := mergeNews B.new_ids (mergeOlds B.old_values A)) hBr).1
      rcases (hA2newmem j).mp (K1.mp hM) with hj | hj
      · obtain ⟨P1, P2, P3⟩ := hB.newVal j hj
        exact ⟨hA.nidLe.trans P1, P2, P3⟩
      · obtain ⟨P1, P2, P3⟩ := hA.newVal j hj
        have hBn : j ∉ B.new_ids ∨ j ∈ B.new_ids := Or.symm (em _)
        cases hBo : mfind B.old_values j with
        | some w =>
          exact ⟨P1, lt_of_lt_of_le P2 hB.nidLe, (hB.oldVal j w hBo).2.1⟩
        | none =>
          by_cases hjB : j ∈ B.new_ids
          · obtain ⟨Q1, Q2, Q3⟩ := hB.newVal j hjB
            exact ⟨P1, Q2, Q3⟩
          · have hcur : mfind curIdx j = mfind midIdx j := hB.untouched j hjB hBo hBr
            refine ⟨P1, lt_of_lt_of_le P2 hB.nidLe, ?_⟩
            rw [hcur]
            exact P3
  -- removed_values of the merged state
  · intro j x hM
    cases hBr : mfind B.removed_values j with
    | some w =>
      have hA2remj : mfind
          (mergeNews B.new_ids (mergeOlds B.old_values A)).removed_values j = none := by
        rw [hA2remeq]
        exact hBremArem j w hBr
      by_cases hA2newj : j ∈ (mergeNews B.new_ids (mergeOlds B.old_values A)).new_ids
      · obtain ⟨K1, K2, K3⟩ := mergeRemoved_key_new hB.remSorted hBr hA2newj
        rw [K3, hA2remj] at hM
        exact Option.noConfusion hM
      · cases hA2oldj : mfind
            (mergeNews B.new_ids (mergeOlds B.old_values A)).old_values j with
        | some y =>
          obtain ⟨K1, K2, K3⟩ :=
            mergeRemoved_key_old hB.remSorted hBr hA2newj hA2oldj hA2remj
          rw [K3] at hM
          cases hM
          have hAoldj : mfind A.old_values j = some x := by
            rw [hA2old, mergeOlds_notkey (hBremBold j w hBr)] at hA2oldj
            exact hA2oldj
          obtain ⟨P1, P2, P3⟩ := hA.oldVal j x hAoldj
          exact ⟨P1, (hB.remVal j w hBr).2.1, P3⟩
        | none =>
          obtain ⟨K1, K2, K3⟩ :=
            mergeRemoved_key_nop hB.remSorted hBr hA2newj hA2oldj hA2remj
          rw [K3] at hM
          cases hM
          obtain ⟨Q1, Q2, Q3⟩ := hB.remVal j x hBr
          have hAn : j ∉ A.new_ids := by
            intro hmem
            exact hA2newj ((hA2newmem j).mpr (Or.inr hmem))
          have hAon : mfind A.old_values j = none := by
            rw [hA2old, mergeOlds_notkey (hBremBold j x hBr)] at hA2oldj
            exact hA2oldj
          have hArem := hBremArem j x hBr
          have hmidj : mfind midIdx j = mfind preIdx j :=
            hA.untouched j hAn hAon hArem
          rw [hmidj] at Q1
          exact ⟨Q1, Q2, hpre.find_lt Q1⟩
    | none =>
      obtain ⟨K1, K2, K3⟩ := mergeRemoved_notkey
        (a := mergeNews B.new_ids (mergeOlds B.old_values A)) hBr
      rw [K3, hA2remeq] at hM
      obtain ⟨P1, P2, P3⟩ := hA.remVal j x hM
      have hBn : j ∉ B.new_ids := by
        intro hmem
        rw [(hBnewA j hmem).2.2] at hM
        exact Option.noConfusion hM
      have hBo : mfind B.old_values j = none := by
        cases hbo : mfind B.old_values j with
        | none => rfl
        | some w =>
          rw [hBoldArem j w hbo] at hM
          exact Option.noConfusion hM
      have hcur : mfind curIdx j = mfind midIdx j := hB.untouched j hBn hBo hBr
      rw [hcur, P2]
      exact ⟨P1, rfl, P3⟩
  -- ids untouched by the merged state
  · intro j hn ho hr
    cases hBr : mfind B.removed_values j with
    | some w =>
      have hA2remj : mfind
          (mergeNews B.new_ids (mergeOlds B.old_values A)).removed_values j = none := by
        rw [hA2remeq]
        exact hBremArem j w hBr
      by_cases hA2newj : j ∈ (mergeNews B.new_ids (mergeOlds B.old_values A)).new_ids
      · obtain ⟨K1, K2, K3⟩ := mergeRemoved_key_new hB.remSorted hBr hA2newj
        rcases (hA2newmem j).mp hA2newj with hj | hj
        · exact absurd hBr (by rw [((hB.disj j).1 hj).2]; simp)
        · have hge := (hA.newVal j hj).1
          rw [(hB.remVal j w hBr).2.1, hpre.find_big hge]
      · cases hA2oldj : mfind
            (mergeNews B.new_ids (mergeOlds B.old_values A)).old_values j with
        | some y =>
          obtain ⟨K1, K2, K3⟩ :=
            mergeRemoved_key_old hB.remSorted hBr hA2newj hA2oldj hA2remj
          rw [K3] at hr
          exact Option.noConfusion hr
        | none =>
          obtain ⟨K1, K2, K3⟩ :=
            mergeRemoved_key_nop hB.remSorted hBr hA2newj hA2oldj hA2remj
          rw [K3] at hr
          exact Option.noConfusion hr
    | none =>
      obtain ⟨K1, K2, K3⟩ := mergeRemoved_notkey
        (a := mergeNews B.new_ids (mergeOlds B.old_values A)) hBr
      have hA2n : j ∉ (mergeNews B.new_ids (mergeOlds B.old_values A)).new_ids :=
        fun hmem => hn (K1.mpr hmem)
      have hBn : j ∉ B.new_ids := fun hmem => hA2n ((hA2newmem j).mpr (Or.inl hmem))
      have hAn : j ∉ A.new_ids := fun hmem => hA2n ((hA2newmem j).mpr (Or.inr hmem))
      rw [K2, hA2old] at ho
      rw [K3, hA2remeq] at hr
      have hBo : mfind B.old_values j = none := by
        cases hbo : mfind B.old_values j with
        | none => rfl
        | some w =>
          obtain ⟨L1, L2, L3⟩ := mergeOlds_key (a := A) hB.oldSorted hbo
          by_cases hAo : (mfind A.old_values j).isSome = true
          · rw [L2 hAo] at ho
            rw [ho] at hAo
            exact Bool.noConfusion hAo
          · have hAon : mfind A.old_values j = none := by
              cases hq : mfind A.old_values j with
              | none => rfl
              | some q => exact absurd (by rw [hq]; rfl) hAo
            rw [L3 hAn hAon] at ho
            exact Option.noConfusion ho
      rw [mergeOlds_notkey hBo] at ho
      rw [hB.untouched j hBn hBo hBr, hA.untouched j hAn ho hr]

theorem emplace_ok_snap {α : Type} {ks : List (α → Nat)} {g g1 : generic_index α}
    {c : Nat → α} {v : Nat × α}
    (hstep : emplace ks g c = (g1, Except.ok v))
    (hcur : SnapOk g.indices g.next_id) : SnapOk g1.indices g1.next_id := by
  obtain ⟨-, hidx, hnid, -, -, -, -⟩ := emplace_ok_spec hstep
  refine ⟨?_, ?_⟩
  · rw [hidx]
    exact ksorted_mput _ hcur.sorted
  · intro y hy
    rw [hidx] at hy
    rw [hnid]
    rcases mem_mput hy with hy1 | hy1
    · rw [hy1]
      exact Nat.lt_succ_self _
    · have := hcur.bound y hy1
      omega

theorem modify_ok_snap {α : Type} {ks : List (α → Nat)} {g g1 : generic_index α}
    {i : Nat} {m : α → α}
    (hstep : modify ks g i m = (g1, Except.ok ()))
    (hcur : SnapOk g.indices g.next_id) : SnapOk g1.indices g1.next_id := by
  obtain ⟨cur, -, hidx, hnid, -, -⟩ := modify_ok_spec hstep
  refine ⟨?_, ?_⟩
  · rw [hidx]
    exact ksorted_mset _ _ hcur.sorted
  · intro y hy
    rw [hidx] at hy
    rw [hnid]
    rcases mem_mset hy with hy1 | ⟨hy1, w, hw⟩
    · exact hcur.bound y hy1
    · rw [hy1]
      exact hcur.bound (i, w) hw

theorem remove_ok_snap {α : Type} {g g1 : generic_index α} {i : Nat}
    (hstep : remove g i = (g1, Except.ok ()))
    (hcur : SnapOk g.indices g.next_id) : SnapOk g1.indices g1.next_id := by
  obtain ⟨cur, -, hidx, hnid, -, -⟩ := remove_ok_spec hstep
  refine ⟨?_, ?_⟩
  · rw [hidx]
    exact ksorted_mdel _ hcur.sorted
  · intro y hy
    rw [hidx] at hy
    rw [hnid]
    exact hcur.bound y (mem_mdel hy)

theorem start_true_spec {α : Type} (g : generic_index α) :
    (start_undo_session g true).1 =
      { g with
        stack := { old_values := [], removed_values := [], new_ids := [],
                   old_next_id := g.next_id, revision := g.revision + 1 } :: g.stack,
        revision := g.revision + 1 } := by
  rw [start_undo_session]
  simp

theorem SInv_start {α : Type} {g0 : generic_index α}
    (hg0 : SnapOk g0.indices g0.next_id) : SInv g0 (start_undo_session g0 true).1 := by
  rw [start_true_spec]
  exact ⟨hg0, rfl, _, rfl, HInv_fresh _⟩

theorem SInv_step {α : Type} {ks : List (α → Nat)} {g0 g g1 : generic_index α}
    (hg0 : SnapOk g0.indices g0.next_id)
    (hinv : SInv g0 g) (hstep : SessStep ks g g1) : SInv g0 g1 := by
  obtain ⟨hcur, hrev, h, hstack, hh⟩ := hinv
  cases hstep with
  | emp hop =>
    obtain ⟨hstk1, hsnap1, hh1, hrev1⟩ := emplace_ok_inv hop hstack hg0 hcur hh
    exact ⟨hsnap1, by rw [hrev1, hrev], _, hstk1, hh1⟩
  | mod hop =>
    obtain ⟨h1, hstk1, hsnap1, hh1, hrev1, -, -⟩ := modify_ok_inv hop hstack hg0 hcur hh
    exact ⟨hsnap1, by rw [hrev1, hrev], h1, hstk1, hh1⟩
  | rem hop =>
    obtain ⟨h1, hstk1, hsnap1, hh1, hrev1, -, -⟩ := remove_ok_inv hop hstack hg0 hcur hh
    exact ⟨hsnap1, by rw [hrev1, hrev], h1, hstk1, hh1⟩

theorem SessReach_inv {α : Type} {ks : List (α → Nat)} {g0 g : generic_index α}
    (hg0 : SnapOk g0.indices g0.next_id)
    (hreach : SessReach ks g0 g) : SInv g0 g := by
  induction hreach with
  | refl => exact SInv_start hg0
  | tail hr hstep ih => exact SInv_step hg0 ih hstep

/-- Amended round-trip: with no unique secondary index, `undo` after any
session returns exactly the session-entry state. -/
theorem undo_session_roundtrip {α : Type} {g0 g : generic_index α}
    (hg0 : SnapOk g0.indices g0.next_id)
    (hreach : SessReach [] g0 g) :
    undo [] g = Except.ok g0 := by
  obtain ⟨hcur, hrev, h, hstack, hh⟩ := SessReach_inv hg0 hreach
  rw [undo_none_ok hstack hg0 hcur hh]
  have : g.revision - 1 = g0.revision := by omega
  rw [this]

theorem GInv_data {α : Type} {ks : List (α → Nat)} {g g1 : generic_index α}
    (hstep : SessStep ks g g1) (hinv : GInv g) : GInv g1 := by
  obtain ⟨hcur, hstk, hrv⟩ := hinv
  cases hstack : g.stack with
  | nil =>
    have hempty : g1.stack = [] ∧ SnapOk g1.indices g1.next_id := by
      cases hstep with
      | emp hop =>
        obtain ⟨-, -, -, -, -, hnil, -⟩ := emplace_ok_spec hop
        exact ⟨hnil hstack, emplace_ok_snap hop hcur⟩
      | mod hop =>
        obtain ⟨cur, -, -, -, -, hstk1⟩ := modify_ok_spec hop
        refine ⟨?_, modify_ok_snap hop hcur⟩
        rw [hstk1]
        simp [on_modify, hstack]
      | rem hop =>
        obtain ⟨cur, -, -, -, -, hstk1⟩ := remove_ok_spec hop
        refine ⟨?_, remove_ok_snap hop hcur⟩
        rw [hstk1]
        simp [on_remove, hstack]
    refine ⟨hempty.2, ?_, ?_⟩
    · rw [hempty.1]
      exact trivial
    · rw [hempty.1]
      exact trivial
  | cons h rest =>
    rw [hstack] at hstk hrv
    obtain ⟨preIdx, preNid, hpre, hh, hrest⟩ := hstk
    obtain ⟨hhr, hrestr⟩ := hrv
    cases hstep with
    | emp hop =>
      obtain ⟨hstk1, hsnap1, hh1, hrev1⟩ := emplace_ok_inv hop hstack hpre hcur hh
      refine ⟨hsnap1, ?_, ?_⟩
      · rw [hstk1]
        exact ⟨preIdx, preNid, hpre, hh1, hrest⟩
      · rw [hstk1, hrev1]
        exact ⟨hhr, hrestr⟩
    | mod hop =>
      obtain ⟨h1, hstk1, hsnap1, hh1, hrev1, -, hhrev⟩ := modify_ok_inv hop hstack hpre hcur hh
      refine ⟨hsnap1, ?_, ?_⟩
      · rw [hstk1]
        exact ⟨preIdx, preNid, hpre, hh1, hrest⟩
      · rw [hstk1, hrev1]
        exact ⟨by rw [hhrev]; exact hhr, hrestr⟩
    | rem hop =>
      obtain ⟨h1, hstk1, hsnap1, hh1, hrev1, -, hhrev⟩ := remove_ok_inv hop hstack hpre hcur hh
      refine ⟨hsnap1, ?_, ?_⟩
      · rw [hstk1]
        exact ⟨preIdx, preNid, hpre, hh1, hrest⟩
      · rw [hstk1, hrev1]
        exact ⟨by rw [hhrev]; exact hhr, hrestr⟩

theorem GInv_start {α : Type} {g : generic_index α} (e : Bool)
    (hinv : GInv g) : GInv (start_undo_session g e).1 := by
  obtain ⟨hcur, hstk, hrv⟩ := hinv
  cases e with
  | false =>
    rw [start_undo_session]
    simp only [Bool.false_eq_true, if_false]
    exact ⟨hcur, hstk, hrv⟩
  | true =>
    rw [start_true_spec]
    refine ⟨hcur, ⟨g.indices, g.next_id, hcur, HInv_fresh _, hstk⟩, rfl, ?_⟩
    have : g.revision + 1 - 1 = g.revision := by omega
    rw [this]
    exact hrv

theorem GInv_undo {α : Type} {ks : List (α → Nat)} {g g1 : generic_index α}
    (hok : undo ks g = Except.ok g1) (hinv : GInv g) : GInv g1 := by
  obtain ⟨hcur, hstk, hrv⟩ := hinv
  cases hstack : g.stack with
  | nil =>
    rw [undo] at hok
    simp only [hstack] at hok
    cases hok
    exact ⟨hcur, hstk, hrv⟩
  | cons h rest =>
    rw [hstack] at hstk hrv
    obtain ⟨preIdx, preNid, hpre, hh, hrest⟩ := hstk
    have hg1 := undo_ok_spec hstack hpre hcur hh hok
    rw [hg1]
    exact ⟨hpre, hrest, hrv.2⟩

theorem squash_fields {α : Type} (g : generic_index α) :
    (squash g).indices = g.indices ∧ (squash g).next_id = g.next_id := by
  rw [squash]
  cases g.stack with
  | nil => exact ⟨rfl, rfl⟩
  | cons b rest2 =>
    cases rest2 with
    | nil => exact ⟨rfl, rfl⟩
    | cons a rest => exact ⟨rfl, rfl⟩

theorem GInv_squash {α : Type} {g : generic_index α} (hinv : GInv g) : GInv (squash g) := by
  obtain ⟨hcur, hstk, hrv⟩ := hinv
  cases hstack : g.stack with
  | nil =>
    rw [squash]
    simp only [hstack]
    exact ⟨hcur, hstk, hrv⟩
  | cons b rest2 =>
    cases rest2 with
    | nil =>
      rw [squash]
      simp only [hstack]
      exact ⟨hcur, trivial, trivial⟩
    | cons a rest =>
      rw [hstack] at hstk hrv
      obtain ⟨midIdx, midNid, hmid, hhB, preIdx, preNid, hpre, hhA, hrest⟩ := hstk
      obtain ⟨hrevB, hrevA, hrestr⟩ := hrv
      rw [squash]
      simp only [hstack]
      have hM := HInv_merge hpre hmid hhA hhB
      refine ⟨hcur, ⟨preIdx, preNid, hpre, hM, hrest⟩, ?_, ?_⟩
      · have h1 := (mergeRemoved_fields b.removed_values
          (mergeNews b.new_ids (mergeOlds b.old_values a))).2
        have h2 := (mergeNews_fields b.new_ids (mergeOlds b.old_values a)).2.2.2
        have h3 := (mergeOlds_fields b.old_values a).2.2.2
        rw [h1, h2, h3, hrevA]
      · have : g.revision - 1 - 1 = g.revision - 2 := by omega
        have h4 : ∀ rv, RevInv rest rv → rv = g.revision - 1 - 1 → RevInv rest (g.revision - 1 - 1) :=
          fun rv hr he => he ▸ hr
        exact h4 _ hrestr (by omega)

theorem StackInv_commit {α : Type} {l : List (undo_state α)}
    {curIdx : List (Nat × α)} {curNid : Nat} (r : Int)
    (hstk : StackInv l curIdx curNid) : StackInv (commitList r l) curIdx curNid := by
  induction l generalizing curIdx curNid with
  | nil => exact trivial
  | cons s rest ih =>
    obtain ⟨preIdx, preNid, hpre, hh, hrest⟩ := hstk
    rw [commitList]
    by_cases hc : ((commitList r rest).isEmpty && decide (s.revision ≤ r)) = true
    · rw [if_pos hc]
      exact trivial
    · rw [if_neg hc]
      exact ⟨preIdx, preNid, hpre, hh, ih hrest⟩

theorem RevInv_commit {α : Type} {l : List (undo_state α)} {rv : Int} (r : Int)
    (hrv : RevInv l rv) : RevInv (commitList r l) rv := by
  induction l generalizing rv with
  | nil => exact trivial
  | cons s rest ih =>
    obtain ⟨hs, hrest⟩ := hrv
    rw [commitList]
    by_cases hc : ((commitList r rest).isEmpty && decide (s.revision ≤ r)) = true
    · rw [if_pos hc]
      exact trivial
    · rw [if_neg hc]
      exact ⟨hs, ih hrest⟩

theorem GInv_commit {α : Type} {g : generic_index α} (r : Int)
    (hinv : GInv g) : GInv (commit g r) := by
  obtain ⟨hcur, hstk, hrv⟩ := hinv
  exact ⟨hcur, StackInv_commit r hstk, RevInv_commit r hrv⟩

theorem GInv_init {α : Type} : GInv (ginit α) :=
  ⟨⟨List.Pairwise.nil, fun y hy => absurd hy (List.not_mem_nil y)⟩, trivial, trivial⟩

/-- The global invariant holds in every reachable state. -/
theorem Reach_GInv {α : Type} {ks : List (α → Nat)} {g : generic_index α}
    (hreach : Reach ks g) : GInv g := by
  induction hreach with
  | refl => exact GInv_init
  | tail hr hstep ih =>
    cases hstep with
    | data hs => exact GInv_data hs ih
    | start e => exact GInv_start e ih
    | und hok => exact GInv_undo hok ih
    | sq => exact GInv_squash ih
    | com r => exact GInv_commit r ih

theorem StackInv_disjoint {α : Type} {l : List (undo_state α)}
    {curIdx : List (Nat × α)} {curNid : Nat}
    (hstk : StackInv l curIdx curNid) : ∀ h ∈ l, disjointState h := by
  induction l generalizing curIdx curNid with
  | nil => intro h hmem; exact absurd hmem (List.not_mem_nil h)
  | cons s rest ih =>
    obtain ⟨preIdx, preNid, hpre, hh, hrest⟩ := hstk
    intro h hmem
    rcases List.mem_cons.mp hmem with hm | hm
    · rw [hm]
      exact hh.disj
    · exact ih hrest h hm

theorem mput_length {α : Type} (x : Nat × α) (l : List (Nat × α)) :
    (mput x l).length ≤ l.length + 1 := by
  induction l with
  | nil => simp [mput]
  | cons y rest ih =>
    by_cases h1 : x.1 < y.1
    · simp [mput, h1]
    · by_cases h2 : x.1 = y.1
      · simp [mput, h1, h2]
      · simp only [mput, if_neg h1, if_neg h2, List.length_cons]
        omega

theorem RevInv_le {α : Type} {l : List (undo_state α)} {rv : Int}
    (h : RevInv l rv) : ∀ s ∈ l, s.revision ≤ rv := by
  induction l generalizing rv with
  | nil => intro s hs; exact absurd hs (List.not_mem_nil s)
  | cons t rest ih =>
    obtain ⟨ht, hrest⟩ := h
    intro s hs
    rcases List.mem_cons.mp hs with hm | hm
    · rw [hm, ht]
    · have := ih hrest s hm
      omega

/-- Under revision contiguity, the front-popping loop of `commit` removes
exactly the states with revision at most `r`. -/
theorem commitList_filter {α : Type} {l : List (undo_state α)} {rv : Int}
    (hrev : RevInv l rv) (r : Int) :
    commitList r l = l.filter (fun h => decide (r < h.revision)) := by
  induction l generalizing rv with
  | nil => rfl
  | cons s rest ih =>
    obtain ⟨hs, hrest⟩ := hrev
    have ih1 := ih hrest
    rw [commitList]
    by_cases hc : ((commitList r rest).isEmpty && decide (s.revision ≤ r)) = true
    · rw [if_pos hc]
      have hparts : (commitList r rest).isEmpty = true ∧ decide (s.revision ≤ r) = true := by
        cases hq1 : (commitList r rest).isEmpty with
        | false =>
          rw [hq1] at hc
          exact absurd hc (by simp)
        | true =>
          cases hq2 : decide (s.revision ≤ r) with
          | false =>
            rw [hq1, hq2] at hc
            exact absurd hc (by simp)
          | true => exact ⟨rfl, rfl⟩
      have hsle2 : s.revision ≤ r := of_decide_eq_true hparts.2
      have hnot : decide (r < s.revision) = false := by
        simp only [decide_eq_false_iff_not]
        omega
      have hfilters : List.filter (fun h => decide (r < h.revision)) (s :: rest) =
          List.filter (fun h => decide (r < h.revision)) rest := by
        simp [List.filter_cons, hnot]
      rw [hfilters, ← ih1]
      rw [List.isEmpty_iff] at hparts
      rw [hparts.1]
    · rw [if_neg hc]
      by_cases hsle : s.revision ≤ r
      · exfalso
        have hemp : (commitList r rest).isEmpty = false := by
          cases hq : (commitList r rest).isEmpty with
          | false => rfl
          | true => exact absurd (by rw [hq, decide_eq_true hsle]; rfl) hc
        have hne : commitList r rest ≠ [] := by
          intro hnil
          rw [hnil] at hemp
          exact Bool.noConfusion hemp
        rw [ih1] at hne
        obtain ⟨t, ht, hmem⟩ : ∃ t ts, rest.filter (fun h => decide (r < h.revision)) = t :: ts := by
          cases hq : rest.filter (fun h => decide (r < h.revision)) with
          | nil => exact absurd hq hne
          | cons t ts => exact ⟨t, ts, rfl⟩
        have hmem2 := List.mem_filter.mp
          (show t ∈ rest.filter (fun h => decide (r < h.revision)) by
            rw [hmem]; exact List.mem_cons_self _ _)
        have h1 : r < t.revision := of_decide_eq_true hmem2.2
        have h2 := RevInv_le hrest t hmem2.1
        omega
      · have hpos : decide (r < s.revision) = true := by
          simp only [decide_eq_true_eq]
          omega
        have hfilters : List.filter (fun h => decide (r < h.revision)) (s :: rest) =
            s :: List.filter (fun h => decide (r < h.revision)) rest := by
          simp [List.filter_cons, hpos]
        rw [hfilters, ih1]

theorem undo_ok_stack {α : Type} {ks : List (α → Nat)} {g g1 : generic_index α}
    (hok : undo ks g = Except.ok g1) :
    g1.stack = g.stack ∨ g1.stack = g.stack.tail := by
  cases hstack : g.stack with
  | nil =>
    rw [undo] at hok
    simp only [hstack] at hok
    cases hok
    exact Or.inl hstack
  | cons h rest =>
    rw [undo] at hok
    simp only [hstack] at hok
    cases h1 : restoreOlds ks h.old_values g.indices with
    | error e =>
      simp only [h1] at hok
      exact Except.noConfusion hok
    | ok i1 =>
      simp only [h1] at hok
      cases h2 : eraseNews h.new_ids i1 with
      | error e =>
        simp only [h2] at hok
        exact Except.noConfusion hok
      | ok i2 =>
        simp only [h2] at hok
        cases h3 : reinsertRemoved ks h.removed_values i2 with
        | error e =>
          simp only [h3] at hok
          exact Except.noConfusion hok
        | ok i3 =>
          simp only [h3] at hok
          cases hok
          exact Or.inr rfl

/-! ## The claims -/

/-- C1 (amended).  As stated the claim fails when the object kind declares a
unique secondary index: restoring pre-images one at a time can collide with
a live object and `undo` throws instead of restoring (see
c1_undo_roundtrip_counterexample).  Amended: for an object kind with no
unique secondary constraint, for every sequence of successful
emplace/modify/remove operations performed during an active session,
`undo()` restores the index exactly to its state at session entry — every
modified object regains its pre-image, session-created objects are erased,
removed objects are reinserted, and `next_id`, the stack and the revision
return to their session-entry values (the result *is* the entry state). -/
theorem c1_undo_roundtrip {α : Type} {g0 g : generic_index α}
    (hwf : SnapOk g0.indices g0.next_id)
    (hreach : SessReach [] g0 g) :
    undo [] g = Except.ok g0 :=
  undo_session_roundtrip hwf hreach

theorem c1_undo_roundtrip_witness : undo [] w1run = Except.ok w1g0 := by
  have st1 : SessStep ([] : List (Nat → Nat)) (start_undo_session w1g0 true).1 w1s1 :=
    SessStep.emp (c := fun _ => 7) (v := (1, 7)) (by decide)
  have st2 : SessStep ([] : List (Nat → Nat)) w1s1 w1s2 :=
    SessStep.mod (i := 0) (m := fun _ => 9) (by decide)
  have st3 : SessStep ([] : List (Nat → Nat)) w1s2 w1run :=
    SessStep.rem (i := 0) (by decide)
  exact c1_undo_roundtrip ⟨by decide, by decide⟩
    (Relation.ReflTransGen.tail (Relation.ReflTransGen.tail
      (Relation.ReflTransGen.tail Relation.ReflTransGen.refl st1) st2) st3)

/-- C1 as stated is false: with a unique secondary index on the payload,
after a session whose two `modify` calls both succeeded, `undo()` throws
(StateCorrupt) instead of restoring the session-entry state `c1base`. -/
theorem c1_undo_roundtrip_counterexample :
    Reach ksId c1base ∧
    SessReach ksId c1base c1run ∧
    undo ksId c1run = Except.error Err.stateCorrupt ∧
    undo ksId c1run ≠ Except.ok c1base := by
  refine ⟨?_, ?_, by decide, by decide⟩
  · have st1 : GStep ksId (ginit Nat) (emplace ksId (ginit Nat) (fun _ => 1)).1 :=
      GStep.data (SessStep.emp (c := fun _ => 1) (v := (0, 1)) (by decide))
    have st2 : GStep ksId (emplace ksId (ginit Nat) (fun _ => 1)).1 c1base :=
      GStep.data (SessStep.emp (c := fun _ => 2) (v := (1, 2)) (by decide))
    exact Relation.ReflTransGen.tail
      (Relation.ReflTransGen.tail Relation.ReflTransGen.refl st1) st2
  · have st1 : SessStep ksId (start_undo_session c1base true).1 c2mid :=
      SessStep.mod (i := 0) (m := fun _ => 3) (by decide)
    have st2 : SessStep ksId c2mid c1run :=
      SessStep.mod (i := 1) (m := fun _ => 1) (by decide)
    exact Relation.ReflTransGen.tail
      (Relation.ReflTransGen.tail Relation.ReflTransGen.refl st1) st2

/-- C2 (amended).  As stated the claim fails for object kinds with a unique
secondary index (see c2_squash_undo_counterexample, where undoing the merged
state throws while undoing the two sessions one at a time succeeds).
Amended: with no unique secondary constraint, after an outer session and a
nested inner session, squashing the inner into the outer and then undoing
the merged state yields exactly the state before the outer session was
entered — i.e. squash followed by undo equals undoing both sessions. -/
theorem c2_squash_undo {α : Type} {g0 gmid gcur : generic_index α}
    (hwf : SnapOk g0.indices g0.next_id)
    (houter : SessReach [] g0 gmid)
    (hinner : SessReach [] gmid gcur) :
    undo [] (squash gcur) = Except.ok g0 := by
  obtain ⟨hmidSnap, hrevmid, A, hstA, hhA⟩ := SessReach_inv hwf houter
  obtain ⟨hcurSnap, hrevcur, B, hstB, hhB⟩ := SessReach_inv hmidSnap hinner
  have hstackcur : gcur.stack = B :: A :: g0.stack := by
    rw [hstB, hstA]
  have hsq : squash gcur = { gcur with
      stack := mergeRemoved B.removed_values
        (mergeNews B.new_ids (mergeOlds B.old_values A)) :: g0.stack,
      revision := gcur.revision - 1 } := by
    rw [squash]
    simp only [hstackcur]
  have hM := HInv_merge hwf hmidSnap hhA hhB
  have hstacksq : (squash gcur).stack = mergeRemoved B.removed_values
      (mergeNews B.new_ids (mergeOlds B.old_values A)) :: g0.stack := by
    rw [hsq]
  obtain ⟨hf1, hf2⟩ := squash_fields gcur
  have hsnapSq : SnapOk (squash gcur).indices (squash gcur).next_id := by
    rw [hf1, hf2]
    exact hcurSnap
  have hhM : HInv g0.indices g0.next_id
      (mergeRemoved B.removed_values (mergeNews B.new_ids (mergeOlds B.old_values A)))
      (squash gcur).indices (squash gcur).next_id := by
    rw [hf1, hf2]
    exact hM
  rw [undo_none_ok hstacksq hwf hsnapSq hhM]
  have hrv : (squash gcur).revision - 1 = g0.revision := by
    rw [hsq]
    simp only
    omega
  rw [hrv]

theorem c2_squash_undo_witness : undo [] (squash w2run) = Except.ok w1g0 := by
  have st1 : SessStep ([] : List (Nat → Nat)) (start_undo_session w1g0 true).1 w2mid :=
    SessStep.mod (i := 0) (m := fun _ => 8) (by decide)
  have st2 : SessStep ([] : List (Nat → Nat)) (start_undo_session w2mid true).1 w2run :=
    SessStep.emp (c := fun _ => 4) (v := (1, 4)) (by decide)
  exact c2_squash_undo ⟨by decide, by decide⟩
    (Relation.ReflTransGen.tail Relation.ReflTransGen.refl st1)
    (Relation.ReflTransGen.tail Relation.ReflTransGen.refl st2)

/-- C2 as stated is false: with a unique secondary index, undoing the
squashed state throws StateCorrupt, while undoing the two sessions one at a
time restores the state before the outer session — so squash-then-undo and
undo-both disagree. -/
theorem c2_squash_undo_counterexample :
    SessReach ksId c1base c2mid ∧
    SessReach ksId c2mid c2run ∧
    undo ksId (squash c2run) = Except.error Err.stateCorrupt ∧
    (undo ksId c2run).bind (undo ksId) = Except.ok c1base := by
  refine ⟨?_, ?_, by decide, by decide⟩
  · have st1 : SessStep ksId (start_undo_session c1base true).1 c2mid :=
      SessStep.mod (i := 0) (m := fun _ => 3) (by decide)
    exact Relation.ReflTransGen.tail Relation.ReflTransGen.refl st1
  · have st1 : SessStep ksId (start_undo_session c2mid true).1 c2run :=
      SessStep.mod (i := 1) (m := fun _ => 1) (by decide)
    exact Relation.ReflTransGen.tail Relation.ReflTransGen.refl st1

/-- C3 (amended).  As stated the claim fails: per `boost::multi_index`
semantics a mutation rejected by unique-index revalidation *erases* the
element, so the object does not remain present (see
c3_modify_rejected_counterexample).  Amended: when the mutated payload
collides with another element on a unique secondary index, `modify` fails
with UniquenessViolation, the object is erased from the container, and the
pre-image bookkeeping performed by `on_modify` (the undo-state update) is
retained. -/
theorem c3_modify_rejected {α : Type} {ks : List (α → Nat)} {g : generic_index α}
    {i : Nat} {m : α → α} {cur : α}
    (hfind : mfind g.indices i = some cur)
    (hclash : modClash ks (on_modify g (i, cur)).indices i (m cur) = true) :
    (modify ks g i m).2 = Except.error Err.uniqueness ∧
    mfind (modify ks g i m).1.indices i = none ∧
    (modify ks g i m).1.stack = (on_modify g (i, cur)).stack := by
  rw [modify]
  simp only [hfind]
  rw [if_pos hclash]
  refine ⟨rfl, ?_, rfl⟩
  exact mfind_mdel_self _ _

theorem c3_modify_rejected_witness :
    (modify ksId c3g 0 (fun _ => 7)).2 = Except.error Err.uniqueness ∧
    mfind (modify ksId c3g 0 (fun _ => 7)).1.indices 0 = none ∧
    (modify ksId c3g 0 (fun _ => 7)).1.stack = (on_modify c3g (0, 5)).stack :=
  c3_modify_rejected (by decide) (by decide)

/-- C3 as stated is false at this input: the rejected `modify` reports
UniquenessViolation but the object with id 1 is no longer present in the
container afterwards. -/
theorem c3_modify_rejected_counterexample :
    (modify ksId c3g 1 (fun _ => 5)).2 = Except.error Err.uniqueness ∧
    mfind (modify ksId c3g 1 (fun _ => 5)).1.indices 1 = none :=
  ⟨by decide, by decide⟩

/-- C4.  In every undo state on the stack of a reachable index, an id is
tracked by at most one of `new_ids`, `old_values`, `removed_values`: a
session-created id appears in neither value map, and no id is in both
`old_values` and `removed_values` (invariant I1; the `squash` merge cases
asserted impossible never materialise along real histories). -/
theorem c4_state_disjoint {α : Type} {ks : List (α → Nat)} {g : generic_index α}
    (hreach : Reach ks g) : ∀ h ∈ g.stack, disjointState h :=
  StackInv_disjoint (Reach_GInv hreach).2.1

theorem c4_state_disjoint_witness :
    mfind (headState c4run).old_values 0 = none ∨
    mfind (headState c4run).removed_values 0 = none := by
  have t1 : GStep ([] : List (Nat → Nat)) (ginit Nat) (start_undo_session (ginit Nat) true).1 :=
    GStep.start (ginit Nat) true
  have t2 : GStep ([] : List (Nat → Nat)) (start_undo_session (ginit Nat) true).1 c4mid :=
    GStep.data (SessStep.emp (c := fun _ => 3) (v := (0, 3)) (by decide))
  have t3 : GStep ([] : List (Nat → Nat)) c4mid (start_undo_session c4mid true).1 :=
    GStep.start c4mid true
  have t4 : GStep ([] : List (Nat → Nat)) (start_undo_session c4mid true).1
      (modify [] (start_undo_session c4mid true).1 0 (fun _ => 6)).1 :=
    GStep.data (SessStep.mod (i := 0) (m := fun _ => 6) (by decide))
  have t5 : GStep ([] : List (Nat → Nat))
      (modify [] (start_undo_session c4mid true).1 0 (fun _ => 6)).1 c4run :=
    GStep.sq (modify [] (start_undo_session c4mid true).1 0 (fun _ => 6)).1
  have hreach : Reach ([] : List (Nat → Nat)) c4run :=
    Relation.ReflTransGen.tail (Relation.ReflTransGen.tail (Relation.ReflTransGen.tail
      (Relation.ReflTransGen.tail (Relation.ReflTransGen.tail
        Relation.ReflTransGen.refl t1) t2) t3) t4) t5
  exact (c4_state_disjoint hreach (headState c4run) (by decide) 0).2

/-- C5.  During an active session, the pre-image of an object is captured
only on its first mutation: after a successful `modify` of id `i`, a second
successful `modify` of `i` leaves the head state's `old_values` unchanged,
each successful `modify` grows `old_values` by at most one entry, and any
pre-image stored for `i` is exactly the object's value at session entry. -/
theorem c5_first_write {α : Type} {ks : List (α → Nat)} {g0 g g1 g2 : generic_index α}
    {i : Nat} {m m2 : α → α}
    (hwf : SnapOk g0.indices g0.next_id)
    (hreach : SessReach ks g0 g)
    (h1 : modify ks g i m = (g1, Except.ok ()))
    (h2 : modify ks g1 i m2 = (g2, Except.ok ())) :
    headOld g2 = headOld g1 ∧
    (headOld g1).length ≤ (headOld g).length + 1 ∧
    (∀ x, mfind (headOld g1) i = some x → mfind g0.indices i = some x) := by
  obtain ⟨hcur, hrev, h, hstack, hh⟩ := SessReach_inv hwf hreach
  obtain ⟨hcur1, hrev1, h1x, hstk1x, hh1x⟩ :=
    SInv_step hwf ⟨hcur, hrev, h, hstack, hh⟩ (SessStep.mod h1)
  obtain ⟨cur, hfind, hidxa, hnida, hreva, hstk1⟩ := modify_ok_spec h1
  have hheadOld1 : headOld g1 = h1x.old_values := by
    unfold headOld
    rw [hstk1x]
  have hheadOldg : headOld g = h.old_values := by
    unfold headOld
    rw [hstack]
  have hbranch : (g1.stack = h :: g0.stack ∧
      (i ∈ h.new_ids ∨ (mfind h.old_values i).isSome = true)) ∨
      (g1.stack = { h with old_values := mput (i, cur) h.old_values } :: g0.stack ∧
        mfind h.old_values i = none) := by
    by_cases hc1 : i ∈ h.new_ids
    · refine Or.inl ⟨?_, Or.inl hc1⟩
      rw [hstk1]
      simp [on_modify, hstack, hc1]
    · by_cases hc2 : (mfind h.old_values i).isSome = true
      · refine Or.inl ⟨?_, Or.inr hc2⟩
        rw [hstk1]
        simp [on_modify, hstack, hc1, hc2]
      · have hnone : mfind h.old_values i = none := by
          cases ho : mfind h.old_values i with
          | none => rfl
          | some x => exact absurd (by rw [ho]; rfl) hc2
        refine Or.inr ⟨?_, hnone⟩
        rw [hstk1]
        simp [on_modify, hstack, hc1, hc2]
  have hcov : i ∈ h1x.new_ids ∨ (mfind h1x.old_values i).isSome = true := by
    rcases hbranch with ⟨he, hcv⟩ | ⟨he, hnone⟩
    · have hxh : h1x = h := by
        rw [hstk1x] at he
        exact (List.cons.inj he).1
      rw [hxh]
      exact hcv
    · have hxh : h1x = { h with old_values := mput (i, cur) h.old_values } := by
        rw [hstk1x] at he
        exact (List.cons.inj he).1
      right
      rw [hxh]
      simp only
      rw [mfind_mput_self2 i cur hnone]
      rfl
  have hlen : (headOld g1).length ≤ (headOld g).length + 1 := by
    rcases hbranch with ⟨he, -⟩ | ⟨he, -⟩
    · have hxh : h1x = h := by
        rw [hstk1x] at he
        exact (List.cons.inj he).1
      rw [hheadOld1, hxh, hheadOldg]
      omega
    · have hxh : h1x = { h with old_values := mput (i, cur) h.old_values } := by
        rw [hstk1x] at he
        exact (List.cons.inj he).1
      rw [hheadOld1, hxh, hheadOldg]
      simp only
      exact mput_length _ _
  obtain ⟨cur1, hfind1, hidx2, hnid2, hrev2, hstk2⟩ := modify_ok_spec h2
  have hmod : on_modify g1 (i, cur1) = g1 := by
    rw [on_modify]
    simp only [hstk1x]
    by_cases hn : i ∈ h1x.new_ids
    · simp [hn]
    · rcases hcov with hcv | hcv
      · exact absurd hcv hn
      · simp [hn, hcv]
  have hg2stack : g2.stack = g1.stack := by
    rw [hstk2, hmod]
  have ha : headOld g2 = headOld g1 := by
    unfold headOld
    rw [hg2stack]
  refine ⟨ha, hlen, ?_⟩
  intro x hx
  rw [hheadOld1] at hx
  exact (hh1x.oldVal i x hx).1

theorem c5_first_write_witness :
    headOld w5m2 = headOld w5m1 ∧
    (headOld w5m1).length ≤ (headOld w5s1).length + 1 ∧
    mfind w5g0.indices 0 = some 10 := by
  have hr : SessReach ([] : List (Nat → Nat)) w5g0 w5s1 := Relation.ReflTransGen.refl
  have H := c5_first_write ⟨by decide, by decide⟩ hr
    (show modify [] w5s1 0 (fun _ => 20) = (w5m1, Except.ok ()) by decide)
    (show modify [] w5m1 0 (fun _ => 30) = (w5m2, Except.ok ()) by decide)
  exact ⟨H.1, H.2.1, H.2.2 10 (by decide)⟩

/-- C6.  On a reachable index, `commit(r)` keeps exactly the undo states
with revision greater than `r` (so states at or below `r` can no longer be
undone), and any state reachable from the committed index by `undo` still
has no stack entry at or below `r`. -/
theorem c6_commit_exact {α : Type} {ks : List (α → Nat)} {g : generic_index α}
    (r : Int) (hreach : Reach ks g) :
    (commit g r).stack = g.stack.filter (fun h => decide (r < h.revision)) ∧
    (∀ h ∈ (commit g r).stack, r < h.revision) ∧
    (∀ g1, undo ks (commit g r) = Except.ok g1 → ∀ h ∈ g1.stack, r < h.revision) := by
  obtain ⟨-, -, hrv⟩ := Reach_GInv hreach
  have hfil : (commit g r).stack = g.stack.filter (fun h => decide (r < h.revision)) :=
    commitList_filter hrv r
  have hall : ∀ h ∈ (commit g r).stack, r < h.revision := by
    intro h hm
    rw [hfil] at hm
    exact of_decide_eq_true (List.mem_filter.mp hm).2
  refine ⟨hfil, hall, ?_⟩
  intro g1 hok h hm
  rcases undo_ok_stack hok with he | he
  · rw [he] at hm
    exact hall h hm
  · rw [he] at hm
    exact hall h (List.tail_subset _ hm)

theorem c6_commit_exact_witness :
    (commit w6run 1).stack = w6run.stack.filter (fun h => decide ((1 : Int) < h.revision)) ∧
    (1 : Int) < (headState (commit w6run 1)).revision := by
  have t1 : GStep ([] : List (Nat → Nat)) (ginit Nat) (start_undo_session (ginit Nat) true).1 :=
    GStep.start (ginit Nat) true
  have t2 : GStep ([] : List (Nat → Nat)) (start_undo_session (ginit Nat) true).1 c4mid :=
    GStep.data (SessStep.emp (c := fun _ => 3) (v := (0, 3)) (by decide))
  have t3 : GStep ([] : List (Nat → Nat)) c4mid (start_undo_session c4mid true).1 :=
    GStep.start c4mid true
  have t4 : GStep ([] : List (Nat → Nat)) (start_undo_session c4mid true).1 w6run :=
    GStep.data (SessStep.emp (c := fun _ => 4) (v := (1, 4)) (by decide))
  have hreach : Reach ([] : List (Nat → Nat)) w6run :=
    Relation.ReflTransGen.tail (Relation.ReflTransGen.tail (Relation.ReflTransGen.tail
      (Relation.ReflTransGen.tail Relation.ReflTransGen.refl t1) t2) t3) t4
  have H := c6_commit_exact 1 hreach
  exact ⟨H.1, H.2.1 (headState (commit w6run 1)) (by decide)⟩

/-- C7 (amended).  As stated the claim is wrong about the single-state
case: `squash` on a one-element stack pops the state but does *not*
decrement `_revision` (chainbase.hpp:505-509 returns before the decrement),
see c7_squash_singleton_counterexample.  Amended: with exactly one undo
state on the stack, `squash` discards it, leaving everything else —
including the revision — unchanged. -/
theorem c7_squash_singleton {α : Type} {g : generic_index α} {s : undo_state α}
    (hstack : g.stack = [s]) :
    squash g = { g with stack := [] } ∧ (squash g).revision = g.revision := by
  have h1 : squash g = { g with stack := [] } := by
    rw [squash]
    simp only [hstack]
  exact ⟨h1, by rw [h1]⟩

theorem c7_squash_singleton_witness :
    squash c7g = { c7g with stack := [] } ∧ (squash c7g).revision = c7g.revision :=
  c7_squash_singleton (s := ⟨[], [], [], 0, 1⟩) (by decide)

/-- C7 as stated is false on a one-element stack: `squash` pops the state
yet the revision stays 1 instead of dropping to 0. -/
theorem c7_squash_singleton_counterexample :
    c7g.stack.length = 1 ∧
    (squash c7g).stack = [] ∧
    (squash c7g).revision = 1 ∧
    c7g.revision = 1 ∧
    ¬ (squash c7g).revision = c7g.revision - 1 := by
  refine ⟨by decide, by decide, by decide, by decide, by decide⟩

/-- C8.  `emplace` either fails with UniquenessViolation leaving the index
untouched, or succeeds returning the object constructed at id `next_id`,
increments `next_id`, makes the object retrievable, and registers the new
id in the active session's head undo state. -/
theorem c8_emplace_contract {α : Type} {ks : List (α → Nat)} {g g1 : generic_index α}
    {c : Nat → α} {r : Except Err (Nat × α)}
    (hstep : emplace ks g c = (g1, r)) :
    (∀ e, r = Except.error e → e = Err.uniqueness ∧ g1 = g) ∧
    (∀ v, r = Except.ok v → v = (g.next_id, c g.next_id) ∧
      g1.next_id = g.next_id + 1 ∧
      mfind g1.indices g.next_id = some (c g.next_id) ∧
      (∀ h rest, g.stack = h :: rest →
        g1.stack = { h with new_ids := sput g.next_id h.new_ids } :: rest)) := by
  constructor
  · intro e he
    rw [emplace] at hstep
    by_cases hcl : insClash ks g.indices (g.next_id, c g.next_id) = true
    · rw [if_pos hcl] at hstep
      injection hstep with hg he2
      exact ⟨(Except.error.inj (he2.trans he)).symm, hg.symm⟩
    · rw [if_neg hcl] at hstep
      injection hstep with hg he2
      rw [← he2] at he
      exact absurd he (by simp)
  · intro v hv
    rw [hv] at hstep
    obtain ⟨hveq, hidx, hnid, -, habs, -, hst⟩ := emplace_ok_spec hstep
    refine ⟨hveq, hnid, ?_, hst⟩
    rw [hidx]
    exact mfind_mput_self2 _ _ habs

theorem c8_emplace_contract_witness :
    (emplace ksId c3g (fun _ => 9)).1.next_id = c3g.next_id + 1 ∧
    mfind (emplace ksId c3g (fun _ => 9)).1.indices c3g.next_id = some 9 := by
  have H := c8_emplace_contract
    (show emplace ksId c3g (fun _ => 9) =
      ((emplace ksId c3g (fun _ => 9)).1, (emplace ksId c3g (fun _ => 9)).2) from rfl)
  have H2 := H.2 (2, 9) (by decide)
  exact ⟨H2.2.1, H2.2.2.1⟩

/-- C9.  Session lifecycle: dropping an armed session handle rolls the index
back (`undo`); the move constructor transfers the armed bit and disarms the
source (without copying the revision); a session started with
`enabled = false` is disarmed, carries revision −1, and its drop leaves the
index untouched; a session started with `enabled = true` on a non-negative
revision is armed. -/
theorem c9_session_lifecycle {α : Type} (ks : List (α → Nat)) (g : generic_index α) (s : session) :
    (s.apply = true → session.drop ks s g = undo ks g) ∧
    ((session.moveFrom s).1.apply = s.apply ∧ (session.moveFrom s).2.apply = false ∧
      session.drop ks (session.moveFrom s).2 g = Except.ok g) ∧
    ((start_undo_session g false).2.apply = false ∧
      (start_undo_session g false).2.revision = -1 ∧
      session.drop ks (start_undo_session g false).2 g = Except.ok g) ∧
    (0 ≤ g.revision → (start_undo_session g true).2.apply = true) := by
  refine ⟨?_, ⟨rfl, rfl, rfl⟩, ⟨?_, ?_, ?_⟩, ?_⟩
  · intro hs
    rw [session.drop, if_pos hs]
  · simp [start_undo_session, mkSession]
  · simp [start_undo_session, mkSession]
  · simp [start_undo_session, mkSession, session.drop]
  · intro hge
    show decide ((g.revision + 1 : Int) ≠ -1) = true
    simp only [decide_eq_true_eq]
    omega

theorem c9_session_lifecycle_witness :
    session.drop [] ({ apply := true, revision := 5 } : session) c10g = undo [] c10g ∧
    (session.moveFrom { apply := true, revision := 5 }).2.apply = false ∧
    (start_undo_session c10g false).2.revision = -1 ∧
    (start_undo_session c10g true).2.apply = true := by
  have H := c9_session_lifecycle [] c10g { apply := true, revision := 5 }
  exact ⟨H.1 rfl, H.2.1.2.1, H.2.2.1.2.1, H.2.2.2 (by decide)⟩

/-- C10.  With no undo session active (empty stack), `undo`, `squash` and
`undo_all` are no-ops that leave the index unchanged and raise nothing. -/
theorem c10_empty_stack_noop {α : Type} (ks : List (α → Nat)) {g : generic_index α}
    (hstack : g.stack = []) :
    undo ks g = Except.ok g ∧ squash g = g ∧ undo_all ks g = Except.ok g := by
  refine ⟨?_, ?_, ?_⟩
  · rw [undo]
    simp only [hstack]
  · rw [squash]
    simp only [hstack]
  · rw [undo_all, hstack]
    rfl

theorem c10_empty_stack_noop_witness :
    undo [] c10g = Except.ok c10g ∧ squash c10g = c10g ∧ undo_all [] c10g = Except.ok c10g :=
  c10_empty_stack_noop [] rfl

end Chainbase
